import Mathlib

/-!
Verification of the artifact-synthesis engine of `tnc_map_helper`.

The definitions below are shallow embeddings of the Python source:
`application/main_window.py` (XML template repetition, Extra-Record-aware
value injection, pack-level splitting), `application/spreadsheet_parser.py`
(location parsing and catalog matching) and `application/csv_parser.py`
(CSV placeholder filling).  XML elements (`xml.etree.ElementTree.Element`)
are modelled as an ordered labelled tree; element identity is modelled by
the position of a node in its parent's child list (a freshly appended clone
gets a new position, a reused element keeps its position).  Python string
primitives (`endswith`, `strip`, `split`, `replace`) are modelled over
character lists so that every definition evaluates inside the kernel.
-/

/-! ### Python string primitives over character lists -/

/-- `s.endswith(suf)`. -/
def strEndsWith (s suf : String) : Bool :=
  let a := s.toList
  let b := suf.toList
  b == a.drop (a.length - b.length)

/-- `s.strip()`: leading and trailing whitespace removed. -/
def strTrim (s : String) : String :=
  String.mk
    (((s.toList.dropWhile Char.isWhitespace).reverse.dropWhile
        Char.isWhitespace).reverse)

/-- `s.startswith(pre)`. -/
def strStartsWith (s pre : String) : Bool :=
  pre.toList.isPrefixOf s.toList

/-- `s.split(sep)` for a one-character separator (the only separators the
source uses are `"_"` and `"."`). -/
def splitOnChar (sep : Char) : List Char → List (List Char)
  | [] => [[]]
  | c :: rest =>
    let r := splitOnChar sep rest
    if c == sep then [] :: r
    else
      match r with
      | h :: t => (c :: h) :: t
      | [] => [[c]]

/-- `s.split(sep)` as strings. -/
def strSplitOn (s : String) (sep : Char) : List String :=
  (splitOnChar sep s.toList).map String.mk

/-- `s.replace(pat, repl)` over characters: left-to-right, non-overlapping
(the patterns used are never empty); the fuel, instantiated with the
input length, bounds the recursion depth so the scan is structural. -/
def replaceListAux (pat repl : List Char) : Nat → List Char → List Char
  | _, [] => []
  | 0, cs => cs
  | fuel + 1, c :: rest =>
    if !pat.isEmpty && pat.isPrefixOf (c :: rest) then
      repl ++ replaceListAux pat repl fuel ((c :: rest).drop pat.length)
    else c :: replaceListAux pat repl fuel rest

/-- `s.replace(pat, repl)`. -/
def strReplace (s pat repl : String) : String :=
  String.mk (replaceListAux pat.toList repl.toList s.toList.length s.toList)

/-- `str.zfill(width)` on the digit strings appearing here. -/
def zfill (s : String) (width : Nat) : String :=
  if s.length ≥ width then s
  else String.mk (List.replicate (width - s.length) '0') ++ s

/-- Value of a list of decimal digit characters. -/
def digitsToNat (ds : List Char) : Nat :=
  ds.foldl (fun n c => n * 10 + (c.toNat - '0'.toNat)) 0

/-! ### The XML tree model and suffix-matching path navigation -/

/-- An XML element: tag name, optional text, ordered children.
Models `xml.etree.ElementTree.Element` (attributes and tails are never
read by the functions under verification). -/
inductive Xml where
  | elem (tag : String) (text : Option String) (children : List Xml)

/-- Tag accessor. -/
def Xml.tagOf : Xml → String
  | .elem t _ _ => t

/-- Text accessor (`element.text`, `None` modelled as `none`). -/
def Xml.textOf : Xml → Option String
  | .elem _ tx _ => tx

/-- Children accessor. -/
def Xml.childrenOf : Xml → List Xml
  | .elem _ _ cs => cs

/-- `element.text = value`. -/
def Xml.setText (x : Xml) (v : String) : Xml :=
  match x with
  | .elem t _ cs => .elem t (some v) cs

/-- The inner loop of `_find_element_by_path` / `_set_xml_value_by_path`:
scan the children in document order and return the first whose tag string
ends with the path component (`child.tag.endswith(part)`). -/
def findChild (cs : List Xml) (part : String) : Option Xml :=
  match cs with
  | [] => none
  | c :: rest => if strEndsWith c.tagOf part then some c else findChild rest part

/-- `MainWindow._find_element_by_path`: walk the path, at each step taking
the first child whose tag ends with the component; `None` when a component
cannot be found. -/
def findByPath (root : Xml) (parts : List String) : Option Xml :=
  match parts with
  | [] => some root
  | p :: ps =>
    match findChild root.childrenOf p with
    | none => none
    | some c => findByPath c ps

mutual

/-- `MainWindow._set_xml_value_by_path`: walk the path exactly as
`_find_element_by_path` does and set the text of the final element; if a
component is missing the function returns with the tree unmodified. -/
def setByPath : Xml → List String → String → Xml
  | x, [], _ => x
  | .elem t tx cs, p :: ps, v => .elem t tx (setChildren cs p ps v)

/-- One navigation step of `_set_xml_value_by_path` over a child list:
only the first child whose tag ends with the component is entered. -/
def setChildren : List Xml → String → List String → String → List Xml
  | [], _, _, _ => []
  | c :: rest, p, ps, v =>
    if strEndsWith c.tagOf p then
      (match ps with
       | [] => c.setText v
       | q :: qs => setByPath c (q :: qs) v) :: rest
    else
      c :: setChildren rest p ps v

end

mutual

/-- Apply a function at the element reached by `_find_element_by_path`
style navigation (models in-place mutation of a located element); the
tree is unchanged when the path is missing. -/
def modifyByPath : Xml → List String → (Xml → Xml) → Xml
  | x, [], f => f x
  | .elem t tx cs, p :: ps, f => .elem t tx (modifyChildren cs p ps f)

/-- Child-list step of `modifyByPath`; mirrors `setChildren`. -/
def modifyChildren : List Xml → String → List String → (Xml → Xml) → List Xml
  | [], _, _, _ => []
  | c :: rest, p, ps, f =>
    if strEndsWith c.tagOf p then modifyByPath c ps f :: rest
    else c :: modifyChildren rest p ps f

end

/-- Child at index `i` (dummy element out of range; uses are guarded). -/
def getChild (cs : List Xml) (i : Nat) : Xml :=
  cs.getD i (Xml.elem "" none [])

/-- Navigate by child indices (models holding a reference to a node). -/
def getAt (x : Xml) (path : List Nat) : Option Xml :=
  match path with
  | [] => some x
  | i :: rest =>
    match x.childrenOf[i]? with
    | none => none
    | some c => getAt c rest

/-- Apply `f` to the node at an index path (models in-place mutation of a
node reached through parent references). -/
def modifyAt (x : Xml) (path : List Nat) (f : Xml → Xml) : Xml :=
  match path with
  | [] => f x
  | i :: rest =>
    match x with
    | .elem t tx cs =>
      match cs[i]? with
      | none => .elem t tx cs
      | some c => .elem t tx (cs.set i (modifyAt c rest f))

mutual

/-- Preorder scan of `element.iter()`: index path of the first element
(the root included) whose tag ends with `suf`. -/
def findFirstSuffix : Xml → String → Option (List Nat)
  | .elem t _ cs, suf =>
    if strEndsWith t suf then some [] else findFirstSuffixList cs suf

/-- Child-list step of `findFirstSuffix`: first subtree containing a
match, in document order. -/
def findFirstSuffixList : List Xml → String → Option (List Nat)
  | [], _ => none
  | c :: rest, suf =>
    match findFirstSuffix c suf with
    | some p => some (0 :: p)
    | none =>
      match findFirstSuffixList rest suf with
      | some (i :: p) => some ((i + 1) :: p)
      | _ => none

end

/-! ### Template repetition -/

/-- `MainWindow._clone_order_ack_line_items` (the same shape is used by
`_clone_shipment_item_levels`): locate the first element in preorder whose
tag ends with `"LineItem"`, locate its parent, remove every child of the
parent carrying exactly the located element's tag, and append `maxLines`
deep copies of the original template instance at the end of the parent's
children. -/
def cloneOrderAckLineItems (root : Xml) (maxLines : Nat) : Xml :=
  match findFirstSuffix root "LineItem" with
  | none => root
  | some [] => root
  | some path =>
    match getAt root path with
    | none => root
    | some firstItem =>
      modifyAt root path.dropLast (fun parent =>
        match parent with
        | .elem t tx cs =>
          .elem t tx ((cs.filter (fun c => c.tagOf != firstItem.tagOf)) ++
            List.replicate maxLines firstItem))

/-- `MainWindow._clone_invoice_line_items`: same removal, but the clones
are inserted starting at the original index of the first `LineItem` among
its siblings, so trailing siblings (e.g. `Summary`) stay after them. -/
def cloneInvoiceLineItems (root : Xml) (maxLines : Nat) : Xml :=
  match findFirstSuffix root "LineItem" with
  | none => root
  | some [] => root
  | some path =>
    match getAt root path, path.getLast? with
    | some firstItem, some i =>
      modifyAt root path.dropLast (fun parent =>
        match parent with
        | .elem t tx cs =>
          let kept := cs.filter (fun c => c.tagOf != firstItem.tagOf)
          .elem t tx (kept.take i ++ List.replicate maxLines firstItem ++
            kept.drop i))
    | _, _ => root

/-- Effective repetition count in `_generate_rsx_855_test_file`:
`max_lines = max((s.number_of_lines for s in scenarios), default=0)`
followed by `if max_lines <= 0: max_lines = 1`. -/
def effectiveMaxLines (lineCounts : List Nat) : Nat :=
  let m := lineCounts.foldr max 0
  if m ≤ 0 then 1 else m

/-- Number of children of the located parent carrying the repeating tag. -/
def countTag (cs : List Xml) (t : String) : Nat :=
  (cs.filter (fun c => c.tagOf == t)).length

/-! ### Extra-Record-aware value injection -/

/-- A header-level Item as seen by `_apply_header_items_with_extra_records`:
its RSX output path for the document kind, the Extra-Record defining tag
and qualifier value, and the TLI value to inject. -/
structure HItem where
  rsxPath : String
  extraTag : String
  extraQual : String
  tliValue : String
  deriving DecidableEq, Repr

/-- `extra_tag = (item.extra_record_defining_rsx_tag or "").strip()`. -/
def HItem.extraTagTrim (it : HItem) : String := strTrim it.extraTag

/-- `extra_qual = (item.extra_record_defining_qual or "").strip()`. -/
def HItem.extraQualTrim (it : HItem) : String := strTrim it.extraQual

/-- `path_parts = rsx_path.split("_")`, with a leading component equal to
the document root name dropped. -/
def headerPathParts (docRootName : String) (it : HItem) : List String :=
  let parts := strSplitOn it.rsxPath '_'
  match parts with
  | p :: rest => if p == docRootName then rest else parts
  | [] => parts

/-- The grouping test of `_apply_header_items_with_extra_records`: both
Extra-Record fields non-empty after stripping, and at least two path parts
(so a parent container exists). -/
def isGrouped (docRootName : String) (it : HItem) : Bool :=
  let parts := headerPathParts docRootName it
  it.extraTagTrim != "" && it.extraQualTrim != "" && decide (parts.length ≥ 2)

/-- Grouping key `(tuple(parent_parts), extra_tag, extra_qual)` where
`parent_parts = path_parts[:-1]`. -/
def itemKey (docRootName : String) (it : HItem) : List String × String × String :=
  ((headerPathParts docRootName it).dropLast, it.extraTagTrim, it.extraQualTrim)

/-- `grouped.setdefault(key, []).append(...)` over an association list that
keeps insertion order, as a Python dict does. -/
def addToGroups (acc : List ((List String × String × String) × List HItem))
    (key : List String × String × String) (it : HItem) :
    List ((List String × String × String) × List HItem) :=
  match acc with
  | [] => [(key, [it])]
  | (k, its) :: rest =>
    if k == key then (k, its ++ [it]) :: rest
    else (k, its) :: addToGroups rest key it

/-- The partitioning loop of `_apply_header_items_with_extra_records`:
items with an empty RSX path are skipped, grouped items go into the keyed
groups, the rest are normal header items. -/
def buildGroups (docRootName : String) (items : List HItem) :
    List ((List String × String × String) × List HItem) × List HItem :=
  items.foldl (fun acc it =>
    if it.rsxPath == "" then acc
    else if isGrouped docRootName it then
      (addToGroups acc.1 (itemKey docRootName it) it, acc.2)
    else (acc.1, acc.2 ++ [it])) ([], [])

/-- The body of the partitioning loop of `buildGroups`, named for reasoning
about the fold. -/
def buildGroupsStep (docRootName : String)
    (acc : List ((List String × String × String) × List HItem) × List HItem)
    (it : HItem) : List ((List String × String × String) × List HItem) × List HItem :=
  if it.rsxPath == "" then acc
  else if isGrouped docRootName it then
    (addToGroups acc.1 (itemKey docRootName it) it, acc.2)
  else (acc.1, acc.2 ++ [it])

/-- One Extra-Record group ready for processing: the parent path of the
repeated container, the defining tag and qualifier value, and the grouped
items' `(full_path_parts, value)` pairs. -/
structure XGroup where
  parentParts : List String
  qtag : String
  qual : String
  writes : List (List String × String)
  deriving DecidableEq, Repr

/-- The repeated container's tag: `repeated_tag = parent_parts[-1]`. -/
def XGroup.rtagOf (g : XGroup) : String :=
  (g.parentParts.getLast?).getD ""

/-- Build the `XGroup` for one entry of the grouped dict; header items
write their `tli_value` at their full path parts. -/
def xgroupOfEntry (docRootName : String)
    (e : (List String × String × String) × List HItem) : XGroup :=
  { parentParts := e.1.1
    qtag := e.1.2.1
    qual := e.1.2.2
    writes := e.2.map (fun it => (headerPathParts docRootName it, it.tliValue)) }

/-- `sub_parts`: the part of the full path below the repeated container,
obtained with `full_path_parts.index(repeated_tag)` (first exact match);
when the tag does not occur the full path is used unchanged. -/
def innerParts (full : List String) (rtag : String) : List String :=
  match full.findIdx? (fun p => p == rtag) with
  | some i => full.drop (i + 1)
  | none => full

/-- The qualifier check made on a candidate repeated element:
`self._find_element_by_path(candidate, [extra_tag])` followed by
`(qual_elem.text or "").strip()`; `none` when the qualifier child is
missing. -/
def qualView (c : Xml) (qtag : String) : Option String :=
  (findByPath c [qtag]).map (fun e => strTrim (e.textOf.getD ""))

/-- Scan the existing repeated elements (children whose tag ends with the
repeated tag) for one whose qualifier element already holds the required
value; returns its child index. -/
def groupReuseIdx (cs : List Xml) (rtag qtag qual : String) : Option Nat :=
  match cs with
  | [] => none
  | c :: rest =>
    if strEndsWith c.tagOf rtag && qualView c qtag == some qual then some 0
    else (groupReuseIdx rest rtag qtag qual).map (fun i => i + 1)

/-- The clone template: the first existing repeated element, or a bare
`ET.Element(repeated_tag)` when none exists. -/
def groupTemplate (cs : List Xml) (rtag : String) : Xml :=
  (cs.find? (fun c => strEndsWith c.tagOf rtag)).getD (Xml.elem rtag none [])

/-- Write all of the group's values inside the chosen container: for each
`(full_path_parts, value)`, compute `sub_parts` below the repeated tag,
skip empty `sub_parts` and the bare defining element itself, otherwise
`_set_xml_value_by_path(container, sub_parts, value)`. -/
def applyGroupWrites (c : Xml) (rtag qtag : String)
    (writes : List (List String × String)) : Xml :=
  writes.foldl (fun acc w =>
    let inner := innerParts w.1 rtag
    if inner.isEmpty then acc
    else if inner == [qtag] then acc
    else setByPath acc inner w.2) c

/-- Processing of one Extra-Record group against the located parent's
child list: reuse the first repeated element whose qualifier element
already holds the value, or append a clone of the template; then set the
defining element and write the grouped values.  Also returns the index of
the container instance used. -/
def groupStep (cs : List Xml) (rtag qtag qual : String)
    (writes : List (List String × String)) : List Xml × Nat :=
  match groupReuseIdx cs rtag qtag qual with
  | some i =>
    let c2 := applyGroupWrites (setByPath (getChild cs i) [qtag] qual) rtag qtag writes
    (cs.set i c2, i)
  | none =>
    let c2 := applyGroupWrites (setByPath (groupTemplate cs rtag) [qtag] qual) rtag qtag writes
    (cs ++ [c2], cs.length)

/-- Sequential processing of the grouped dict's entries that share one
located parent element, in insertion order; also returns the container
index assigned to each group. -/
def runGroups (cs : List Xml) (gs : List XGroup) : List Xml × List Nat :=
  match gs with
  | [] => (cs, [])
  | g :: rest =>
    let s := groupStep cs g.rtagOf g.qtag g.qual g.writes
    let r := runGroups s.1 rest
    (r.1, s.2 :: r.2)

/-- Tree-level processing of one group, as in
`_apply_header_items_with_extra_records`: skip when `parent_parts` is
empty; locate the parent of the repeated container via
`_find_element_by_path(root, parent_parts[:-1])` and skip the whole group
when it is unreachable; otherwise process the group at that parent. -/
def applyGroupTree (root : Xml) (g : XGroup) : Xml :=
  if g.parentParts.isEmpty then root
  else
    let cpp := g.parentParts.dropLast
    match findByPath root cpp with
    | none => root
    | some _ =>
      modifyByPath root cpp (fun parent =>
        match parent with
        | .elem t tx cs =>
          .elem t tx (groupStep cs g.rtagOf g.qtag g.qual g.writes).1)

/-- All groups, in dict insertion order. -/
def applyGroupsTree (root : Xml) (gs : List XGroup) : Xml :=
  match gs with
  | [] => root
  | g :: rest => applyGroupsTree (applyGroupTree root g) rest

/-- Full `_apply_header_items_with_extra_records` with the 855/810-style
`apply_normal_item` (a plain `_set_xml_value_by_path` from the document
root): groups first, then the remaining normal header items. -/
def applyHeaderItemsTree (docRootName : String) (root : Xml)
    (items : List HItem) : Xml :=
  let bg := buildGroups docRootName items
  let afterGroups := applyGroupsTree root (bg.1.map (xgroupOfEntry docRootName))
  bg.2.foldl (fun r it => setByPath r (headerPathParts docRootName it) it.tliValue)
    afterGroups

/-- The container index assigned to an item's Extra-Record key by a
single-parent run: position of the key in the grouped dict, composed with
the per-group container indices of `runGroups`. -/
def itemContainerIdx (docRootName : String) (cs : List Xml)
    (items : List HItem) (it : HItem) : Option Nat :=
  let bg := buildGroups docRootName items
  let run := runGroups cs (bg.1.map (xgroupOfEntry docRootName))
  match bg.1.findIdx? (fun e => e.1 == itemKey docRootName it) with
  | some n => run.2[n]?
  | none => none

/-- Decidable record of a run in which every group's value writes leave
its own defining qualifier element holding the group's qualifier value
(no grouped write path resolves onto the qualifier element, and the
qualifier element exists in the chosen container). -/
def cleanRun (cs : List Xml) (gs : List XGroup) : Bool :=
  match gs with
  | [] => true
  | g :: rest =>
    let s := groupStep cs g.rtagOf g.qtag g.qual g.writes
    (qualView (getChild s.1 s.2) g.qtag == some g.qual) && cleanRun s.1 rest

/-! ### CSV placeholder filler (`CSVArchiveParser._generate_csv_test_file`) -/

/-- A resolved Item as the CSV filler reads it: only `tli_value`. -/
structure TliItem where
  tliValue : String
  deriving DecidableEq, Repr

/-- `not val or not val.strip()`: empty or whitespace-only cell. -/
def isBlankCell (s : String) : Bool := strTrim s == ""

/-- `len(row) > 0 and row[0] == "TLI"`. -/
def isTliRow (row : List String) : Bool :=
  match row with
  | c :: _ => c == "TLI"
  | [] => false

/-- Blank cells of a row, the marker column excluded (`row[1:]`). -/
def blankCount (row : List String) : Nat :=
  (row.drop 1).countP (fun c => isBlankCell c)

/-- `item.tli_value.replace("{sequential_number}", str(k))`. -/
def substSeq (v : String) (k : Nat) : String :=
  strReplace v "{sequential_number}" (toString k)

/-- The cell-filling loop of `_generate_csv_test_file` for one TLI row
(columns from index 1): blank cells are filled left-to-right with the
supplied substituted item values; when the values run out remaining
blanks stay unchanged. -/
def fillCells : List String → List String → List String
  | [], _ => []
  | c :: cs, vs =>
    if isBlankCell c then
      match vs with
      | v :: rest => v :: fillCells cs rest
      | [] => c :: fillCells cs []
    else c :: fillCells cs vs

/-- One TLI row: marker column kept, remaining cells filled. -/
def fillRow (row : List String) (vals : List String) : List String :=
  match row with
  | [] => []
  | m :: rest => m :: fillCells rest vals

/-- The per-row loop: TLI rows are replaced (with the 1-based TLI ordinal
substituted into each item value), all other rows pass through; `k`
counts the TLI rows already seen. -/
def fillTliRows (items : List TliItem) (k : Nat) :
    List (List String) → List (List String)
  | [] => []
  | r :: rs =>
    if isTliRow r then
      fillRow r (items.map (fun it => substSeq it.tliValue (k + 1))) ::
        fillTliRows items (k + 1) rs
    else r :: fillTliRows items k rs

/-- `CSVArchiveParser._generate_csv_test_file`: without any TLI row the
rows are returned unchanged; otherwise every TLI row's blank-cell count
(marker excluded) is checked against the Item count, and the first
mismatch raises `ValueError` — modelled as `.error (items, blanks)` —
before any output is produced; on success the TLI rows are filled. -/
def generateCsvTestFile (rows : List (List String)) (items : List TliItem) :
    Except (Nat × Nat) (List (List String)) :=
  if (rows.filter (fun r => isTliRow r)).isEmpty then .ok rows
  else
    match (rows.filter (fun r => isTliRow r)).find?
        (fun r => blankCount r != items.length) with
    | some r => .error (items.length, blankCount r)
    | none => .ok (fillTliRows items 0 rows)

/-! ### Item resolution against the mapping catalog
(`SpreadsheetParser._match_with_database`) -/

/-- Python `int(s)` on the plain optionally-signed integer literals
occurring here; `none` models `ValueError`. -/
def parseIntOpt (s : String) : Option Int :=
  match (strTrim s).toList with
  | [] => none
  | '-' :: ds =>
    if ds.isEmpty || !ds.all Char.isDigit then none
    else some (-(digitsToNat ds : Int))
  | '+' :: ds =>
    if ds.isEmpty || !ds.all Char.isDigit then none
    else some ((digitsToNat ds : Int))
  | ds =>
    if !ds.all Char.isDigit then none else some ((digitsToNat ds : Int))

/-- A mapping-catalog record (`item_properties` row), with the fields
`_match_with_database` reads and copies; the element number is carried as
its stored textual form, the qualifier is nullable. -/
structure DbItem where
  ediSegment : String
  ediElementNumber : String
  ediQualifier : Option String
  tliValue : String
  extraRecordDefiningRsxTag : Option String
  extraRecordDefiningQual : Option String
  isOnDetailLevel : Bool
  rsxPath855 : String
  rsxPath856 : String
  rsxPath810 : String
  deriving DecidableEq, Repr

instance : Inhabited DbItem :=
  ⟨⟨"", "", none, "", none, none, false, "", "", ""⟩⟩

/-- The PO1 exception of `_match_with_database`:
`if item.edi_segment == "PO1" and edi_element_num:` with
`int(edi_element_num) > 6` coercing the element to `"07"`; a conversion
failure keeps the original value. -/
def coercePO1Element (seg el : String) : String :=
  if seg == "PO1" && el != "" then
    match parseIntOpt el with
    | some n => if n > 6 then "07" else el
    | none => el
  else el

/-- The element-number comparison: convert both sides with `int(...)`
(the empty string standing for `None`) and compare the integers; a
conversion failure on either side falls back to plain string equality. -/
def elementMatches (dbRaw itemEl : String) : Bool :=
  if dbRaw != "" && (parseIntOpt dbRaw).isNone then dbRaw == itemEl
  else if itemEl != "" && (parseIntOpt itemEl).isNone then dbRaw == itemEl
  else
    match (if dbRaw == "" then none else parseIntOpt dbRaw),
        (if itemEl == "" then none else parseIntOpt itemEl) with
    | some a, some b => a == b
    | _, _ => false

/-- Qualifier comparison: `db_item.get("edi_qualifier") or ""` against
`item.edi_qualifier or ""`; a match needs both non-empty and equal, or
both empty. -/
def qualifierMatches (dbq : Option String) (itemQual : String) : Bool :=
  let d := dbq.getD ""
  (d != "" && itemQual != "" && d == itemQual) || (d == "" && itemQual == "")

/-- The per-row match test of `_match_with_database` (with the already
coerced element number). -/
def matchesDb (seg elCoerced itemQual : String) (db : DbItem) : Bool :=
  db.ediSegment == seg && elementMatches db.ediElementNumber elCoerced &&
    qualifierMatches db.ediQualifier itemQual

/-- Resolution result: zero matches, more than one match, or the unique
catalog row that populates the Item. -/
inductive MatchOutcome where
  | noMatch
  | ambiguous
  | unique (row : DbItem)
  deriving DecidableEq, Repr

/-- `SpreadsheetParser._match_with_database`: coerce the PO1 element,
collect all catalog rows matching `(segment, element, qualifier)`, and
report zero matches, multiple matches, or the unique matching row. -/
def matchWithDatabase (seg el qual : String) (dbItems : List DbItem) :
    MatchOutcome :=
  let el2 := coercePO1Element seg el
  let found := dbItems.filter (fun d => matchesDb seg el2 qual d)
  if found.length == 0 then .noMatch
  else if found.length > 1 then .ambiguous
  else .unique (found.headD default)

/-- The fields `_match_with_database` copies into the Item from the unique
matching row (`or ""` applied to the nullable Extra-Record fields). -/
structure ResolvedFields where
  tliValue : String
  extraRecordDefiningRsxTag : String
  extraRecordDefiningQual : String
  isOnDetailLevel : Bool
  rsxPath855 : String
  rsxPath856 : String
  rsxPath810 : String
  deriving DecidableEq, Repr

/-- Population of the Item from the unique catalog row. -/
def populateFrom (row : DbItem) : ResolvedFields :=
  { tliValue := row.tliValue
    extraRecordDefiningRsxTag := row.extraRecordDefiningRsxTag.getD ""
    extraRecordDefiningQual := row.extraRecordDefiningQual.getD ""
    isOnDetailLevel := row.isOnDetailLevel
    rsxPath855 := row.rsxPath855
    rsxPath856 := row.rsxPath856
    rsxPath810 := row.rsxPath810 }

/-! ### The location parser (`Item.parse_edi_info` and the special N104
handling of `SpreadsheetParser.parse`)

Regular expressions are embedded as character-list matchers.  `\d` /
`[A-Za-z]` are the ASCII classes (the inputs are ASCII location strings),
`\S`/`\s` are non-whitespace/whitespace.  Lazy `\S+?` groups try the
shortest split first; the greedy `\d+` and `[A-Za-z0-9]+` runs take the
maximal character run, which the regex forces because the character that
follows them in every pattern can never belong to the run. -/

/-- `[A-Za-z0-9]`. -/
def isAlnum (c : Char) : Bool := c.isAlpha || c.isDigit

/-- `\s*`. -/
def dropSpaces (cs : List Char) : List Char :=
  cs.dropWhile Char.isWhitespace

/-- The last two characters (`digits[-2:]` on a run of length ≥ 2). -/
def lastTwo (ds : List Char) : List Char := ds.drop (ds.length - 2)

/-- Pattern 1, `^P0(\d)(\d{2})$`: literal shorthand `P0401` → (`PO4`, `01`). -/
def pat1Match (s : String) : Option (String × String) :=
  match s.toList with
  | ['P', '0', d1, d2, d3] =>
    if d1.isDigit && d2.isDigit && d3.isDigit then
      some ("PO" ++ String.mk [d1], String.mk [d2, d3])
    else none
  | _ => none

/-- The tail `\s*(\S+?)(\d+)\s*=\s*([A-Za-z0-9]+)\s*\)$` of pattern 2
after the opening parenthesis; returns the qualifying sub-segment, its
digits and the qualifier. -/
def pat2Inner (cs : List Char) : Option (String × String × String) :=
  let cs1 := dropSpaces cs
  (List.range cs1.length).findSome? (fun j =>
    let qseg := cs1.take (j + 1)
    if !qseg.all (fun c => !c.isWhitespace) then none
    else
      let ds := (cs1.drop (j + 1)).takeWhile Char.isDigit
      if ds.isEmpty then none
      else
        match dropSpaces ((cs1.drop (j + 1)).dropWhile Char.isDigit) with
        | '=' :: rest2 =>
          let rest3 := dropSpaces rest2
          let q := rest3.takeWhile isAlnum
          if q.isEmpty then none
          else
            match dropSpaces (rest3.dropWhile isAlnum) with
            | [')'] => some (String.mk qseg, String.mk ds, String.mk q)
            | _ => none
        | _ => none)

/-- Pattern 2, `^(\S+?)(\d+)\s*\(\s*(\S+?)(\d+)\s*=\s*([A-Za-z0-9]+)\s*\)$`:
qualified-pair form; returns `(seg_part, digits, (qseg, qdigits, qual))`. -/
def pat2Match (s : String) :
    Option (String × String × (String × String × String)) :=
  let cs := s.toList
  (List.range cs.length).findSome? (fun j =>
    let seg := cs.take (j + 1)
    if !seg.all (fun c => !c.isWhitespace) then none
    else
      let ds := (cs.drop (j + 1)).takeWhile Char.isDigit
      if ds.isEmpty then none
      else
        match dropSpaces ((cs.drop (j + 1)).dropWhile Char.isDigit) with
        | '(' :: rest2 =>
          (pat2Inner rest2).map (fun r => (String.mk seg, String.mk ds, r))
        | _ => none)

/-- Pattern 3, `^(\S+?)(\d+)\s*\(\s*([A-Za-z0-9]+)\s*\)$`:
literal-qualifier form; returns `(seg_part, digits, qual)`. -/
def pat3Match (s : String) : Option (String × String × String) :=
  let cs := s.toList
  (List.range cs.length).findSome? (fun j =>
    let seg := cs.take (j + 1)
    if !seg.all (fun c => !c.isWhitespace) then none
    else
      let ds := (cs.drop (j + 1)).takeWhile Char.isDigit
      if ds.isEmpty then none
      else
        match dropSpaces ((cs.drop (j + 1)).dropWhile Char.isDigit) with
        | '(' :: rest2 =>
          let rest3 := dropSpaces rest2
          let q := rest3.takeWhile isAlnum
          if q.isEmpty then none
          else
            match dropSpaces (rest3.dropWhile isAlnum) with
            | [')'] => some (String.mk seg, String.mk ds, String.mk q)
            | _ => none
        | _ => none)

/-- Pattern 4, `^([A-Za-z]+\d)(\d{2,})$`: letters, one digit joining the
segment, then at least two digits to the end; returns `(seg, el_digits)`. -/
def pat4Match (s : String) : Option (String × String) :=
  let cs := s.toList
  let letters := cs.takeWhile Char.isAlpha
  let rest := cs.dropWhile Char.isAlpha
  if letters.isEmpty then none
  else if !rest.all Char.isDigit then none
  else if rest.length ≥ 3 then
    some (String.mk (letters ++ rest.take 1), String.mk (rest.drop 1))
  else none

/-- Pattern 5, `^([A-Za-z]+)(\d+)$`: generic bare form. -/
def pat5Match (s : String) : Option (String × String) :=
  let cs := s.toList
  let letters := cs.takeWhile Char.isAlpha
  let rest := cs.dropWhile Char.isAlpha
  if letters.isEmpty then none
  else if rest.isEmpty then none
  else if !rest.all Char.isDigit then none
  else some (String.mk letters, String.mk rest)

/-- The digit-count-dependent split of segment/element, repeated verbatim
in the pattern-2 and pattern-3 branches of `parse_edi_info`: with ≥ 3
digits the first digit joins the segment and the last two are the
element; with exactly 2 digits the segment keeps both as element when it
is longer than one character, otherwise absorbs the first digit; a single
digit is the zero-padded element. -/
def splitSegDigits (segPart : String) (ds : List Char) : String × String :=
  if ds.length ≥ 3 then
    (segPart ++ String.mk (ds.take 1), String.mk (lastTwo ds))
  else if ds.length == 2 then
    if segPart.length > 1 then (segPart, zfill (String.mk ds) 2)
    else (segPart ++ String.mk (ds.take 1), zfill (String.mk (ds.drop 1)) 2)
  else (segPart, zfill (String.mk ds) 2)

/-- The element post-processing of pattern 4:
`el[-2:].zfill(2) if len(el) > 2 else el.zfill(2)`. -/
def pat4Element (el : List Char) : String :=
  if el.length > 2 then zfill (String.mk (lastTwo el)) 2
  else zfill (String.mk el) 2

/-- The split of pattern 5, with its special generic `P0…` case
(`seg_part == "P"`, ≥ 3 digits beginning with `0`). -/
def pat5Split (segPart : String) (ds : List Char) : String × String :=
  if segPart == "P" && decide (ds.length ≥ 3) && ds.getD 0 ' ' == '0' then
    ("PO" ++ String.mk ((ds.drop 1).take 1), zfill (String.mk (lastTwo ds)) 2)
  else if ds.length ≥ 3 then
    (segPart ++ String.mk (ds.take 1), String.mk (lastTwo ds))
  else if ds.length == 2 then
    if segPart.length > 1 then (segPart, zfill (String.mk ds) 2)
    else (segPart ++ String.mk (ds.take 1), zfill (String.mk (ds.drop 1)) 2)
  else (segPart, zfill (String.mk ds) 2)

/-- `Item.normalize_segment`: a segment beginning with `P0` is rewritten
to begin with `PO`. -/
def normalizeSegment (seg : String) : String :=
  if strStartsWith seg "P0" then "PO" ++ String.mk (seg.toList.drop 2)
  else seg

/-- `Item.parse_edi_info`: strip, then the ordered pattern attempts with
first match winning; no match yields the all-empty triple. -/
def parseEdiInfo (text : String) : String × String × String :=
  let t := strTrim text
  if t == "" then ("", "", "")
  else
    match pat1Match t with
    | some r => (r.1, r.2, "")
    | none =>
      match pat2Match t with
      | some r =>
        let sd := splitSegDigits r.1 r.2.1.toList
        (normalizeSegment sd.1, sd.2, r.2.2.2.2)
      | none =>
        match pat3Match t with
        | some r =>
          let sd := splitSegDigits r.1 r.2.1.toList
          (normalizeSegment sd.1, sd.2, r.2.2)
        | none =>
          match pat4Match t with
          | some r => (normalizeSegment r.1, pat4Element r.2.toList, "")
          | none =>
            match pat5Match t with
            | some r =>
              let sd := pat5Split r.1 r.2.toList
              (normalizeSegment sd.1, sd.2, "")
            | none => ("", "", "")

/-- Case-insensitive character equality (`re.IGNORECASE`). -/
def chEqCI (a b : Char) : Bool := a.toLower == b.toLower

/-- Consume a literal, case-insensitively; `none` when it does not match. -/
def dropLitCI : List Char → List Char → Option (List Char)
  | cs, [] => some cs
  | c :: cs, l :: ls => if chEqCI c l then dropLitCI cs ls else none
  | [], _ :: _ => none

/-- The first special N104 pattern of `SpreadsheetParser.parse`:
`^N104\s*\(\s*N101\s*=\s*([A-Za-z0-9]+)\s+and\s+N103\s*=\s*([A-Za-z0-9]+)\s*\)$`
(case-insensitive); returns the qualifier taken from the `N101=` value. -/
def matchN104Case1 (s : String) : Option String :=
  match dropLitCI s.toList "N104".toList with
  | none => none
  | some r1 =>
    match dropLitCI (dropSpaces r1) ['('] with
    | none => none
    | some r2 =>
      match dropLitCI (dropSpaces r2) "N101".toList with
      | none => none
      | some r3 =>
        match dropLitCI (dropSpaces r3) ['='] with
        | none => none
        | some r4 =>
          let q1 := (dropSpaces r4).takeWhile isAlnum
          let r5 := (dropSpaces r4).dropWhile isAlnum
          if q1.isEmpty then none
          else if (r5.takeWhile Char.isWhitespace).isEmpty then none
          else
            match dropLitCI (dropSpaces r5) "and".toList with
            | none => none
            | some r6 =>
              if (r6.takeWhile Char.isWhitespace).isEmpty then none
              else
                match dropLitCI (dropSpaces r6) "N103".toList with
                | none => none
                | some r7 =>
                  match dropLitCI (dropSpaces r7) ['='] with
                  | none => none
                  | some r8 =>
                    let q2 := (dropSpaces r8).takeWhile isAlnum
                    let r9 := (dropSpaces r8).dropWhile isAlnum
                    if q2.isEmpty then none
                    else
                      match dropSpaces r9 with
                      | [')'] => some (String.mk q1)
                      | _ => none

/-- The second special N104 pattern:
`^N104\s*\(\s*N103\s*=\s*([A-Za-z0-9]+)\s*\)$` (case-insensitive). -/
def matchN104Case2 (s : String) : Option String :=
  match dropLitCI s.toList "N104".toList with
  | none => none
  | some r1 =>
    match dropLitCI (dropSpaces r1) ['('] with
    | none => none
    | some r2 =>
      match dropLitCI (dropSpaces r2) "N103".toList with
      | none => none
      | some r3 =>
        match dropLitCI (dropSpaces r3) ['='] with
        | none => none
        | some r4 =>
          let q := (dropSpaces r4).takeWhile isAlnum
          let r5 := (dropSpaces r4).dropWhile isAlnum
          if q.isEmpty then none
          else
            match dropSpaces r5 with
            | [')'] => some (String.mk q)
            | _ => none

/-- Result of the EDI-info decoding stage of `SpreadsheetParser.parse`
for one column. -/
inductive ClearedParse where
  | ok (segment element qualifier : String)
  | missingPrevN104
  deriving DecidableEq, Repr

/-- The special N104 handling of `SpreadsheetParser.parse` followed by
`Item.parse_edi_info`: case 1 yields segment `N1`, element `04` and the
qualifier taken from the `N101=` value; case 2 inherits the previous
N1 Item's qualifier (`prev` is the previous item's segment/qualifier) and
is an error when there is none; everything else goes to
`parse_edi_info`. -/
def parseClearedEdiInfo (prev : Option (String × String)) (s : String) :
    ClearedParse :=
  let ct := strTrim s
  match matchN104Case1 ct with
  | some q => .ok "N1" "04" q
  | none =>
    match matchN104Case2 ct with
    | some _ =>
      match prev with
      | some (pseg, pqual) =>
        if pseg == "N1" then .ok "N1" "04" pqual else .missingPrevN104
      | none => .missingPrevN104
    | none =>
      let r := parseEdiInfo s
      .ok r.1 r.2.1 r.2.2

/-- The five bare patterns all fail (decidably stated through the pattern
matchers above); `parse_edi_info` then returns the empty triple. -/
def noPatternMatches (t : String) : Bool :=
  (pat1Match t).isNone && (pat2Match t).isNone && (pat3Match t).isNone &&
    (pat4Match t).isNone && (pat5Match t).isNone

/-! ### Consolidated-856 pack-level split
(`MainWindow._split_first_packlevel_in_half`) -/

/-- A parsed plain decimal literal held exactly: value = `mant / 10 ^ exp`. -/
structure DecVal where
  mant : Int
  exp : Nat
  deriving DecidableEq, Repr

/-- Digits, optionally around a single point. -/
def parseUnsignedDecimal (cs : List Char) : Option DecVal :=
  let ip := cs.takeWhile Char.isDigit
  let rest := cs.dropWhile Char.isDigit
  match rest with
  | [] => if ip.isEmpty then none else some ⟨(digitsToNat ip : Int), 0⟩
  | '.' :: fp =>
    if !fp.all Char.isDigit then none
    else if ip.isEmpty && fp.isEmpty then none
    else some ⟨(digitsToNat (ip ++ fp) : Int), fp.length⟩
  | _ => none

/-- `float(raw)` on the plain decimal quantity literals, held exactly as
a scaled integer. -/
def parseDecimal (s : String) : Option DecVal :=
  match s.toList with
  | '-' :: cs => (parseUnsignedDecimal cs).map (fun d => ⟨-d.mant, d.exp⟩)
  | '+' :: cs => parseUnsignedDecimal cs
  | cs => parseUnsignedDecimal cs

/-- `round(m / 2)` for an integer `m` with banker's rounding: an even `m`
halves exactly, an odd `m` rounds the exact half to its even neighbour. -/
def halfRoundEven (m : Int) : Int :=
  let k := Int.fdiv m 2
  if m % 2 == 0 then k
  else if k % 2 == 0 then k else k + 1

/-- `decimals = len(raw.split(".")[1])`. -/
def decimalsOf (raw : String) : Nat :=
  match strSplitOn raw '.' with
  | _ :: second :: _ => second.length
  | _ => 0

/-- Decimal digit characters of a natural number (`str(n)`), built from
repeated division; the fuel (never less than the digit count at the call
site) makes the recursion structural. -/
def natToStrAux : Nat → Nat → List Char → List Char
  | 0, _, acc => acc
  | fuel + 1, n, acc =>
    if n == 0 then acc
    else natToStrAux fuel (n / 10) (Char.ofNat (48 + n % 10) :: acc)

/-- `str(n)` for a natural number. -/
def natToStr (n : Nat) : String :=
  if n == 0 then "0" else String.mk (natToStrAux (n + 1) n [])

/-- `str(m)` for an integer. -/
def intToStr (m : Int) : String :=
  if m < 0 then "-" ++ natToStr m.natAbs else natToStr m.natAbs

/-- Decimal rendering of `scaled / 10 ^ d` with exactly `d` fractional
digits (`"{:.df}".format` of the already-rounded value); no point when
`d = 0`. -/
def renderScaled (scaled : Int) (d : Nat) : String :=
  if d == 0 then intToStr scaled
  else
    let a := scaled.natAbs
    (if scaled < 0 then "-" else "") ++ natToStr (a / 10 ^ d) ++ "." ++
      zfill (natToStr (a % 10 ^ d)) d

/-- The numeric transformation of `_split_first_packlevel_in_half`:
`val = float(raw)`, `half_val = val / 2.0`; a raw containing a point is
formatted back with its original number of decimals
(`"{:.df}".format(half_val)`), an integer raw becomes
`str(int(round(half_val)))`.  With `raw = mant / 10 ^ d`, the rounded
numerator of either branch is `round(mant / 2)`, computed here with exact
banker's rounding; for a raw whose mantissa is odd and carries a point,
the exact half sits on a rounding tie which CPython resolves through the
binary representation error of the double, so the model's tie direction
stands in for it there. -/
def halveQtyString (raw : String) : Option String :=
  match parseDecimal raw with
  | none => none
  | some v =>
    if raw.toList.contains '.' then
      some (renderScaled (halfRoundEven v.mant) (decimalsOf raw))
    else
      some (intToStr (halfRoundEven v.mant))

/-- `MainWindow._split_first_packlevel_in_half`: locate the first
`PackLevel` in preorder and its parent; take the pack's first direct
`ItemLevel` child and that item's first `ShipQty` descendant; halve the
quantity text in place; then build a copy of the (already updated) pack
holding only a copy of that first `ItemLevel`, and insert it immediately
after the original pack among the parent's children.  Any missing piece
(no pack, no item, no quantity text, unparsable number) leaves the tree
unchanged. -/
def splitFirstPackLevelInHalf (ol : Xml) : Xml :=
  match findFirstSuffix ol "PackLevel" with
  | none => ol
  | some [] => ol
  | some pathPL =>
    match getAt ol pathPL, pathPL.getLast? with
    | some pack, some k =>
      match pack.childrenOf.findIdx? (fun c => strEndsWith c.tagOf "ItemLevel") with
      | none => ol
      | some j =>
        let item := getChild pack.childrenOf j
        match findFirstSuffix item "ShipQty" with
        | none => ol
        | some pathSQ =>
          match (getAt item pathSQ).bind Xml.textOf with
          | none => ol
          | some txt =>
            let raw := strTrim txt
            if raw == "" then ol
            else
              match halveQtyString raw with
              | none => ol
              | some halfStr =>
                let item2 := modifyAt item pathSQ (fun e => e.setText halfStr)
                let pack2 :=
                  match pack with
                  | .elem t tx cs => Xml.elem t tx (cs.set j item2)
                let newPack :=
                  match pack2 with
                  | .elem t tx cs =>
                    Xml.elem t tx
                      ((cs.filter (fun c => !strEndsWith c.tagOf "ItemLevel")) ++
                        [item2])
                modifyAt ol pathPL.dropLast (fun parent =>
                  match parent with
                  | .elem t tx cs =>
                    Xml.elem t tx (List.insertIdx (k + 1) newPack (cs.set k pack2)))
    | _, _ => ol

/-- The caller in `_generate_rsx_856_consolidated_test_file`: after the
TLI values have been injected, only the first created consolidated
OrderLevel is split (`if created_order_levels:
self._split_first_packlevel_in_half(created_order_levels[0])`). -/
def applySplitToOrders (orders : List Xml) : List Xml :=
  match orders with
  | [] => []
  | o :: rest => splitFirstPackLevelInHalf o :: rest

/-! ### Observation helpers used by the theorem statements -/

/-- Cells of `result` sitting at the positions that are blank in the
original row tail, in order (observation of the left-to-right fill). -/
def takeBlanks : List String → List String → List String
  | [], _ => []
  | _ :: _, [] => []
  | c :: cs, r :: rs =>
    if isBlankCell c then r :: takeBlanks cs rs else takeBlanks cs rs

/-- Cells of `result` sitting at the positions that are not blank in the
original row tail, in order. -/
def takeSolids : List String → List String → List String
  | [], _ => []
  | _ :: _, [] => []
  | c :: cs, r :: rs =>
    if isBlankCell c then takeSolids cs rs else r :: takeSolids cs rs

/-! ### Concrete instances used by the closed statements -/

/-- An `OrderAck`-shaped template: header, one repeating `LineItem`, a
trailing `Summary`. -/
def exAckDoc : Xml :=
  .elem "OrderAck" none
    [.elem "Header" none [],
     .elem "LineItem" none [.elem "OrderLine" none []],
     .elem "Summary" none []]

/-- An Address template instance with a cleared qualifier element. -/
def exAddr : Xml :=
  .elem "Address" none
    [.elem "AddressTypeCode" none [], .elem "Name" none [], .elem "City" none []]

/-- Grouped header item whose value write (`…_Address_TypeCode`) resolves
onto the defining qualifier element by suffix match and holds the other
group's qualifier value. -/
def exIt1 : HItem := ⟨"Invoice_Address_TypeCode", "AddressTypeCode", "ST", "VN"⟩

/-- Grouped header item of the second Extra-Record group (`VN`). -/
def exIt2 : HItem := ⟨"Invoice_Address_Name", "AddressTypeCode", "VN", "Bob"⟩

/-- Clean grouped items: two of key `ST`, one of key `VN`; no write path
resolves onto the qualifier element. -/
def exJ1 : HItem := ⟨"Invoice_Address_Name", "AddressTypeCode", "ST", "Alice"⟩

/-- Second item of the `ST` group. -/
def exJ1b : HItem := ⟨"Invoice_Address_City", "AddressTypeCode", "ST", "Kyiv"⟩

/-- Item of the `VN` group. -/
def exJ2 : HItem := ⟨"Invoice_Address_Name", "AddressTypeCode", "VN", "Bob"⟩

/-- The clean groups corresponding to `exJ1`/`exJ1b` and `exJ2`. -/
def exG1 : XGroup :=
  ⟨["Address"], "AddressTypeCode", "ST",
    [(["Address", "Name"], "Alice"), (["Address", "City"], "Kyiv")]⟩

/-- Second clean group. -/
def exG2 : XGroup :=
  ⟨["Address"], "AddressTypeCode", "VN", [(["Address", "Name"], "Bob")]⟩

/-- CSV rows used by the filler witness. -/
def exRows : List (List String) :=
  [["Header", "x"], ["TLI", "", "keep", ""], ["End"]]

/-- Items used by the filler witness. -/
def exItems : List TliItem := [⟨"A-{sequential_number}"⟩, ⟨"B"⟩]

/-- An `OrderLevel` with one `PackLevel` of two `ItemLevel`s, the first
quantity `5`. -/
def exOrderLevel : Xml :=
  .elem "OrderLevel" none
    [.elem "OrderHeader" none [],
     .elem "PackLevel" none
       [.elem "PackHeader" none [],
        .elem "ItemLevel" none
          [.elem "ShipmentLine" none [.elem "ShipQty" (some "5") []]],
        .elem "ItemLevel" none
          [.elem "ShipmentLine" none [.elem "ShipQty" (some "4") []]]]]

/-- A catalog row matching `PO1` element `07`. -/
def exDbRow : DbItem :=
  ⟨"PO1", "7", some "Q", "val", none, none, true, "p855", "p856", "p810"⟩

/-! ## Theorems -/

/-! ### Unfolding equations for the mutually recursive definitions -/

theorem setChildren_cons (c : Xml) (rest : List Xml) (p : String)
    (ps : List String) (v : String) :
    setChildren (c :: rest) p ps v =
      if strEndsWith c.tagOf p then
        (match ps with
         | [] => c.setText v
         | q :: qs => setByPath c (q :: qs) v) :: rest
      else c :: setChildren rest p ps v := rfl

theorem setByPath_elem (t : String) (tx : Option String) (cs : List Xml)
    (p : String) (ps : List String) (v : String) :
    setByPath (.elem t tx cs) (p :: ps) v = .elem t tx (setChildren cs p ps v) :=
  rfl

theorem modifyChildren_cons (c : Xml) (rest : List Xml) (p : String)
    (ps : List String) (f : Xml → Xml) :
    modifyChildren (c :: rest) p ps f =
      if strEndsWith c.tagOf p then modifyByPath c ps f :: rest
      else c :: modifyChildren rest p ps f := rfl

theorem findFirstSuffix_elem (t : String) (tx : Option String) (cs : List Xml)
    (suf : String) :
    findFirstSuffix (.elem t tx cs) suf =
      if strEndsWith t suf then some [] else findFirstSuffixList cs suf := rfl

theorem findFirstSuffixList_cons (c : Xml) (rest : List Xml) (suf : String) :
    findFirstSuffixList (c :: rest) suf =
      (match findFirstSuffix c suf with
       | some p => some (0 :: p)
       | none =>
         match findFirstSuffixList rest suf with
         | some (i :: p) => some ((i + 1) :: p)
         | _ => none) := rfl

/-! ### Shared navigation lemmas -/

theorem findChild_eq_find? (cs : List Xml) (part : String) :
    findChild cs part = cs.find? (fun c => strEndsWith c.tagOf part) := by
  induction cs with
  | nil => rfl
  | cons c rest ih =>
    rw [findChild, List.find?]
    cases h : strEndsWith c.tagOf part with
    | false => simpa [h] using ih
    | true => simp [h]

theorem setChildren_of_findChild_none (cs : List Xml) (p : String)
    (ps : List String) (v : String) (h : findChild cs p = none) :
    setChildren cs p ps v = cs := by
  induction cs with
  | nil => rfl
  | cons c rest ih =>
    rw [findChild] at h
    rw [setChildren_cons]
    cases hc : strEndsWith c.tagOf p with
    | false =>
      rw [hc] at h
      simp only [Bool.false_eq_true, if_false] at h ⊢
      rw [ih h]
    | true => rw [hc] at h; simp at h

theorem setChildren_of_found (cs : List Xml) (p : String) (q : String)
    (qs : List String) (v : String) (c : Xml)
    (hfound : findChild cs p = some c)
    (hkeep : setByPath c (q :: qs) v = c) :
    setChildren cs p (q :: qs) v = cs := by
  induction cs with
  | nil => simp [findChild] at hfound
  | cons d rest ih =>
    rw [findChild] at hfound
    rw [setChildren_cons]
    cases hc : strEndsWith d.tagOf p with
    | false =>
      rw [hc] at hfound
      simp only [Bool.false_eq_true, if_false] at hfound ⊢
      rw [ih hfound]
    | true =>
      rw [hc] at hfound
      simp only [if_true] at hfound
      cases hfound
      simp only [if_true]
      rw [hkeep]

theorem setByPath_missing_eq (parts : List String) :
    ∀ (root : Xml) (v : String),
      findByPath root parts = none → setByPath root parts v = root := by
  induction parts with
  | nil => intro root v h; simp [findByPath] at h
  | cons p ps ih =>
    intro root v h
    cases root with
    | elem t tx cs =>
      rw [findByPath] at h
      rw [setByPath_elem]
      cases hc : findChild (Xml.childrenOf (Xml.elem t tx cs)) p with
      | none =>
        simp only [Xml.childrenOf] at hc
        rw [setChildren_of_findChild_none cs p ps v hc]
      | some c =>
        rw [hc] at h
        cases ps with
        | nil => simp [findByPath] at h
        | cons q qs =>
          simp only [Xml.childrenOf] at hc
          rw [setChildren_of_found cs p q qs v c hc (ih c v h)]

/-- **C10.** At every step of the path navigation used by the injector —
both element lookup (`_find_element_by_path`) and value writing
(`_set_xml_value_by_path`) — the child entered is the first child in
document order whose tag string *ends with* the path component: a suffix
match, not an exact tag-name comparison.  Hence a path part can select a
child with a longer tag sharing that suffix (third conjunct: the part
`TypeCode` selects the earlier sibling tagged `AddressTypeCode`, not the
exact-named one), and when several siblings match only the first is ever
chosen (second conjunct: the write lands on the first matching sibling,
later matching siblings are untouched). -/
theorem c10_suffix_navigation :
    (∀ (t : String) (tx : Option String) (cs : List Xml) (part : String),
        findByPath (.elem t tx cs) [part] =
          cs.find? (fun c => strEndsWith c.tagOf part)) ∧
    (∀ (cs₁ cs₂ : List Xml) (c : Xml) (part v : String),
        (∀ d ∈ cs₁, strEndsWith d.tagOf part = false) →
        strEndsWith c.tagOf part = true →
        setChildren (cs₁ ++ c :: cs₂) part [] v = cs₁ ++ c.setText v :: cs₂) ∧
    (findByPath
        (.elem "Root" none
          [.elem "AddressTypeCode" none [], .elem "TypeCode" (some "x") []])
        ["TypeCode"] = some (.elem "AddressTypeCode" none [])) := by
  refine ⟨?_, ?_, rfl⟩
  · intro t tx cs part
    rw [findByPath]
    simp only [Xml.childrenOf]
    rw [findChild_eq_find? cs part]
    cases h : cs.find? (fun c => strEndsWith c.tagOf part) with
    | none => rfl
    | some c => rfl
  · intro cs₁ cs₂ c part v hnone hc
    induction cs₁ with
    | nil => simp only [List.nil_append, setChildren_cons, hc, if_true]
    | cons d rest ih =>
      have hd : strEndsWith d.tagOf part = false := hnone d (by simp)
      simp only [List.cons_append, setChildren_cons, hd, Bool.false_eq_true,
        if_false, List.cons.injEq, true_and]
      exact ih (fun e he => hnone e (by simp [he]))

/-- Closed instance of C10: the write bypasses the non-matching sibling
and sets the first suffix-matching one. -/
theorem c10_suffix_navigation_witness :
    setChildren [Xml.elem "Other" none [], Xml.elem "AddressTypeCode" none []]
        "TypeCode" [] "v" =
      [Xml.elem "Other" none [],
       Xml.setText (Xml.elem "AddressTypeCode" none []) "v"] := by
  have h := c10_suffix_navigation.2.1 [Xml.elem "Other" none []] []
    (Xml.elem "AddressTypeCode" none []) "TypeCode" "v"
    (by intro d hd; rw [List.mem_singleton] at hd; subst hd; rfl) rfl
  simpa using h

/-- **C9.** Structural mismatches are skipped silently, one path or one
group at a time: (first conjunct) when a path component cannot be found in
the template, `_set_xml_value_by_path` returns with the tree unmodified —
that one value is skipped, nothing is raised; (second conjunct) when a
grouped Extra-Record key's parent path is unreachable, the whole group is
skipped and the remaining groups are still processed on the unchanged
tree. -/
theorem c9_missing_path_skips :
    (∀ (root : Xml) (parts : List String) (v : String),
        findByPath root parts = none → setByPath root parts v = root) ∧
    (∀ (root : Xml) (g : XGroup) (gs : List XGroup),
        findByPath root g.parentParts.dropLast = none →
        applyGroupsTree root (g :: gs) = applyGroupsTree root gs) := by
  constructor
  · intro root parts v h
    exact setByPath_missing_eq parts root v h
  · intro root g gs h
    have hne : g.parentParts.isEmpty = false := by
      cases hp : g.parentParts with
      | nil =>
        rw [hp] at h
        simp [findByPath] at h
      | cons a l => rfl
    have happ : applyGroupTree root g = root := by
      rw [applyGroupTree, hne]
      simp only [Bool.false_eq_true, if_false]
      rw [h]
    rw [applyGroupsTree, happ]

/-- Closed instance of C9: a missing component leaves the tree unchanged,
and a group with an unreachable parent path is skipped. -/
theorem c9_missing_path_skips_witness :
    setByPath (Xml.elem "R" none [Xml.elem "A" none []]) ["B"] "x" =
      Xml.elem "R" none [Xml.elem "A" none []] ∧
    applyGroupsTree (Xml.elem "R" none [Xml.elem "A" none []])
        [⟨["B", "C"], "T", "Q", []⟩] =
      applyGroupsTree (Xml.elem "R" none [Xml.elem "A" none []]) [] := by
  constructor
  · exact c9_missing_path_skips.1 (Xml.elem "R" none [Xml.elem "A" none []])
      ["B"] "x" rfl
  · exact c9_missing_path_skips.2 (Xml.elem "R" none [Xml.elem "A" none []])
      ⟨["B", "C"], "T", "Q", []⟩ [] rfl

/-! ### Index-path lemmas -/

theorem getAt_modifyAt (p : List Nat) :
    ∀ (x y : Xml) (f : Xml → Xml), getAt x p = some y →
      getAt (modifyAt x p f) p = some (f y) := by
  induction p with
  | nil =>
    intro x y f h
    simp only [getAt, Option.some.injEq] at h
    subst h
    simp [getAt, modifyAt]
  | cons i rest ih =>
    intro x y f h
    cases x with
    | elem t tx cs =>
      rw [getAt] at h
      cases hc : (Xml.elem t tx cs).childrenOf[i]? with
      | none => rw [hc] at h; exact absurd h (by simp)
      | some c =>
        rw [hc] at h
        have hlt : i < cs.length := by
          simp only [Xml.childrenOf] at hc
          by_contra hge
          push_neg at hge
          rw [List.getElem?_eq_none hge] at hc
          cases hc
        rw [modifyAt]
        simp only [Xml.childrenOf] at hc
        rw [hc]
        rw [getAt]
        simp only [Xml.childrenOf]
        rw [List.getElem?_set_self (by simpa using hlt)]
        exact (by simpa using ih c y f h)

theorem countTag_clone (cs : List Xml) (x : Xml) (n : Nat) :
    countTag ((cs.filter (fun c => c.tagOf != x.tagOf)) ++ List.replicate n x)
      x.tagOf = n := by
  unfold countTag
  rw [List.filter_append]
  have h1 : (cs.filter (fun c => c.tagOf != x.tagOf)).filter
      (fun c => c.tagOf == x.tagOf) = [] := by
    rw [List.filter_filter]
    apply List.filter_eq_nil_iff.mpr
    intro a _
    cases hb : a.tagOf == x.tagOf with
    | false => simp [hb]
    | true =>
      have heq : a.tagOf = x.tagOf := eq_of_beq hb
      simp [hb, heq]
  have h2 : (List.replicate n x).filter (fun c => c.tagOf == x.tagOf) =
      List.replicate n x := by
    apply List.filter_eq_self.mpr
    intro a ha
    rw [List.eq_of_mem_replicate ha]
    simp
  rw [h1, h2]
  simp

/-- **C2.** The repetition engine (`_clone_order_ack_line_items` as called
by `_generate_rsx_855_test_file`) leaves exactly `N` instances of the
repeating tag under the located parent — all children of the parent with
the located element's tag are removed and `N` copies of the template
instance are appended — and the effective count `N` is always at least 1:
a scenario set whose maximal line count is 0 (or which is empty) still
produces exactly one placeholder repetition. -/
theorem c2_expand_count (root firstItem parent : Xml) (lineCounts : List Nat)
    (path : List Nat)
    (hfind : findFirstSuffix root "LineItem" = some path)
    (hne : path ≠ [])
    (hget : getAt root path = some firstItem)
    (hparent : getAt root path.dropLast = some parent) :
    (∃ parent2,
      getAt (cloneOrderAckLineItems root (effectiveMaxLines lineCounts))
          path.dropLast = some parent2 ∧
      countTag parent2.childrenOf firstItem.tagOf = effectiveMaxLines lineCounts) ∧
    1 ≤ effectiveMaxLines lineCounts := by
  constructor
  · obtain ⟨a, rest, rfl⟩ : ∃ a rest, path = a :: rest := by
      cases path with
      | nil => exact absurd rfl hne
      | cons a rest => exact ⟨a, rest, rfl⟩
    have hclone : cloneOrderAckLineItems root (effectiveMaxLines lineCounts) =
        modifyAt root ((a :: rest).dropLast) (fun p =>
          match p with
          | .elem t tx cs =>
            .elem t tx ((cs.filter (fun c => c.tagOf != firstItem.tagOf)) ++
              List.replicate (effectiveMaxLines lineCounts) firstItem)) := by
      unfold cloneOrderAckLineItems
      rw [hfind]
      dsimp only
      rw [hget]
    rw [hclone]
    refine ⟨_, getAt_modifyAt _ root parent _ hparent, ?_⟩
    cases parent with
    | elem t tx cs => exact countTag_clone cs firstItem (effectiveMaxLines lineCounts)
  · unfold effectiveMaxLines
    cases h : lineCounts.foldr max 0 with
    | zero => simp
    | succ m => simp

/-- Closed instance of C2: an empty scenario set still yields one
`LineItem` repetition in the OrderAck-shaped template. -/
theorem c2_expand_count_witness :
    (∃ parent2,
      getAt (cloneOrderAckLineItems exAckDoc (effectiveMaxLines [])) [] =
          some parent2 ∧
      countTag parent2.childrenOf
          (Xml.elem "LineItem" none [Xml.elem "OrderLine" none []]).tagOf =
        effectiveMaxLines []) ∧
    1 ≤ effectiveMaxLines [] := by
  have h := c2_expand_count exAckDoc
    (Xml.elem "LineItem" none [Xml.elem "OrderLine" none []]) exAckDoc [] [1]
    rfl (by simp) rfl rfl
  simpa using h

/-- **C7.** The location parser is total: `parse_edi_info` is a function
defined on every input string (every index and slice it takes is guarded,
so nothing can raise), and when none of its five patterns matches the
stripped input it returns the all-empty triple
`(segment = "", element = "", qualifier = "")` instead of failing. -/
theorem c7_parser_total (s : String)
    (h : noPatternMatches (strTrim s) = true) :
    parseEdiInfo s = ("", "", "") := by
  unfold noPatternMatches at h
  simp only [Bool.and_eq_true, Option.isNone_iff_eq_none] at h
  obtain ⟨⟨⟨⟨h1, h2⟩, h3⟩, h4⟩, h5⟩ := h
  unfold parseEdiInfo
  dsimp only
  cases he : strTrim s == "" with
  | true => simp [he]
  | false =>
    simp only [he, Bool.false_eq_true, if_false]
    rw [h1, h2, h3, h4, h5]

/-- Closed instance of C7: an unparsable string yields the empty triple. -/
theorem c7_parser_total_witness :
    parseEdiInfo "hello world!" = ("", "", "") :=
  c7_parser_total "hello world!" rfl

/-- **C4.** The qualified-pair location string
`"N104 (N101=VN and N103=92)"` decodes to segment `N1`, element `04`,
qualifier `VN` — the qualifier is the value after the `=` of `N101`, and
the qualifying sub-segment/element pair (`N103=92`) is matched but
discarded.  The decoding is performed by the dedicated N104 branch of
`SpreadsheetParser.parse` (first two conjuncts); the single-pair regex of
`Item.parse_edi_info` alone does not match the two-condition form and
returns the empty triple (third conjunct). -/
theorem c4_qualified_pair_n104 (prev : Option (String × String)) :
    parseClearedEdiInfo prev "N104 (N101=VN and N103=92)" =
      ClearedParse.ok "N1" "04" "VN" ∧
    matchN104Case1 "N104 (N101=VN and N103=92)" = some "VN" ∧
    parseEdiInfo "N104 (N101=VN and N103=92)" = ("", "", "") :=
  ⟨rfl, rfl, rfl⟩

/-- **C5.** Resolution of a descriptor against the mapping catalog
(`_match_with_database`): a `PO1` element numerically greater than 6 is
coerced to `"07"` before matching (first conjunct); an absent (`NULL`)
qualifier and an empty-string qualifier act identically in the row match
(second conjunct); zero matching rows yield the no-match resolution error
(third), more than one matching row yields the ambiguous-match resolution
error (fourth), and exactly one matching row resolves to that row, whose
fields populate the Item (fifth; `populateFrom` is the field copy). -/
theorem c5_catalog_resolution (seg el qual : String) (dbItems : List DbItem) :
    (∀ n : Int, parseIntOpt el = some n → 6 < n →
        coercePO1Element "PO1" el = "07") ∧
    (∀ d : DbItem, ∀ s2 e2 q2 : String,
        matchesDb s2 e2 q2 { d with ediQualifier := none } =
          matchesDb s2 e2 q2 { d with ediQualifier := some "" }) ∧
    (matchWithDatabase seg el qual dbItems = .noMatch ↔
        dbItems.filter (fun d => matchesDb seg (coercePO1Element seg el) qual d)
          = []) ∧
    (matchWithDatabase seg el qual dbItems = .ambiguous ↔
        1 < (dbItems.filter
          (fun d => matchesDb seg (coercePO1Element seg el) qual d)).length) ∧
    (∀ d : DbItem,
        dbItems.filter (fun d2 => matchesDb seg (coercePO1Element seg el) qual d2)
          = [d] →
        matchWithDatabase seg el qual dbItems = .unique d) := by
  refine ⟨?_, ?_, ?_, ?_, ?_⟩
  · intro n h hn
    have hne : (el != "") = true := by
      cases hel : el == "" with
      | true =>
        exfalso
        have he : el = "" := eq_of_beq hel
        rw [he] at h
        rw [show parseIntOpt "" = none from rfl] at h
        cases h
      | false => simp [bne, hel]
    unfold coercePO1Element
    simp only [show ("PO1" == "PO1") = true from rfl, hne, Bool.and_self,
      if_true]
    rw [h]
    simp [hn]
  · intro d s2 e2 q2
    rfl
  · rcases hfound : dbItems.filter
        (fun d => matchesDb seg (coercePO1Element seg el) qual d) with
      _ | ⟨d0, _ | ⟨d1, rest⟩⟩
    · unfold matchWithDatabase
      dsimp only
      rw [hfound]
      simp
    · unfold matchWithDatabase
      dsimp only
      rw [hfound]
      simp
    · unfold matchWithDatabase
      dsimp only
      rw [hfound]
      simp
  · rcases hfound : dbItems.filter
        (fun d => matchesDb seg (coercePO1Element seg el) qual d) with
      _ | ⟨d0, _ | ⟨d1, rest⟩⟩
    · unfold matchWithDatabase
      dsimp only
      rw [hfound]
      simp
    · unfold matchWithDatabase
      dsimp only
      rw [hfound]
      simp
    · unfold matchWithDatabase
      dsimp only
      rw [hfound]
      simp
  · intro d hfound
    unfold matchWithDatabase
    dsimp only
    rw [hfound]
    simp

/-- Closed instance of C5: a `PO1` element `08` is coerced to `07` and
resolves uniquely against a catalog row stored with element `7`. -/
theorem c5_catalog_resolution_witness :
    coercePO1Element "PO1" "08" = "07" ∧
    matchWithDatabase "PO1" "08" "Q" [exDbRow] = .unique exDbRow := by
  have h := c5_catalog_resolution "PO1" "08" "Q" [exDbRow]
  exact ⟨h.1 8 rfl (by decide), h.2.2.2.2 exDbRow rfl⟩

/-! ### CSV filler lemmas -/

theorem fillCells_length (cs : List String) :
    ∀ vs, (fillCells cs vs).length = cs.length := by
  induction cs with
  | nil => intro vs; rfl
  | cons c rest ih =>
    intro vs
    unfold fillCells
    cases hb : isBlankCell c with
    | true =>
      cases vs with
      | nil => simp [hb, ih]
      | cons v vrest => simp [hb, ih]
    | false => simp [hb, ih]

theorem takeBlanks_fillCells (cs : List String) :
    ∀ vs, cs.countP (fun c => isBlankCell c) = vs.length →
      takeBlanks cs (fillCells cs vs) = vs := by
  induction cs with
  | nil =>
    intro vs h
    simp only [List.countP_nil] at h
    rw [List.eq_nil_of_length_eq_zero h.symm]
    rfl
  | cons c rest ih =>
    intro vs h
    rw [List.countP_cons] at h
    unfold fillCells
    cases hb : isBlankCell c with
    | true =>
      rw [hb] at h
      simp only [if_true] at h
      cases vs with
      | nil => simp at h
      | cons v vrest =>
        simp only [hb, if_true]
        unfold takeBlanks
        simp only [hb, if_true, List.cons.injEq, true_and]
        exact ih vrest (by simpa using h)
    | false =>
      rw [hb] at h
      simp only [Bool.false_eq_true, if_false, Nat.add_zero] at h
      simp only [hb, Bool.false_eq_true, if_false]
      unfold takeBlanks
      simp only [hb, Bool.false_eq_true, if_false]
      exact ih vs h

theorem takeSolids_fillCells (cs : List String) :
    ∀ vs, takeSolids cs (fillCells cs vs) = takeSolids cs cs := by
  induction cs with
  | nil => intro vs; rfl
  | cons c rest ih =>
    intro vs
    unfold fillCells
    cases hb : isBlankCell c with
    | true =>
      cases vs with
      | nil =>
        simp only [hb, if_true]
        unfold takeSolids
        simp only [hb, if_true]
        exact ih []
      | cons v vrest =>
        simp only [hb, if_true]
        unfold takeSolids
        simp only [hb, if_true]
        exact ih vrest
    | false =>
      simp only [hb, Bool.false_eq_true, if_false]
      unfold takeSolids
      simp only [hb, Bool.false_eq_true, if_false, List.cons.injEq, true_and]
      exact ih vs

theorem fillTliRows_length (items : List TliItem) :
    ∀ rows k, (fillTliRows items k rows).length = rows.length := by
  intro rows
  induction rows with
  | nil => intro k; rfl
  | cons r rs ih =>
    intro k
    unfold fillTliRows
    cases ht : isTliRow r with
    | true => simp [ht, ih]
    | false => simp [ht, ih]

theorem fillTliRows_get (items : List TliItem) :
    ∀ (rows : List (List String)) (k i : Nat) (r : List String),
      rows[i]? = some r →
      (isTliRow r = false → (fillTliRows items k rows)[i]? = some r) ∧
      (isTliRow r = true → (fillTliRows items k rows)[i]? =
        some (fillRow r (items.map (fun it => substSeq it.tliValue
          (k + (rows.take i).countP (fun row => isTliRow row) + 1))))) := by
  intro rows
  induction rows with
  | nil => intro k i r h; simp at h
  | cons r0 rs ih =>
    intro k i r h
    cases i with
    | zero =>
      simp only [List.getElem?_cons_zero, Option.some.injEq] at h
      subst h
      unfold fillTliRows
      constructor
      · intro hf
        simp [hf]
      · intro htr
        simp [htr]
    | succ i2 =>
      simp only [List.getElem?_cons_succ] at h
      unfold fillTliRows
      cases ht : isTliRow r0 with
      | true =>
        have harr : ∀ c : Nat, k + (c + 1) + 1 = k + 1 + c + 1 := by omega
        simp only [ht, if_true, List.getElem?_cons_succ, List.take_succ_cons,
          List.countP_cons]
        constructor
        · exact fun hf => (ih (k + 1) i2 r h).1 hf
        · intro htr
          have h2 := (ih (k + 1) i2 r h).2 htr
          simpa [harr] using h2
      | false =>
        have hrec := ih k i2 r h
        simp only [ht, Bool.false_eq_true, if_false, List.getElem?_cons_succ,
          List.take_succ_cons, List.countP_cons]
        constructor
        · exact fun hf => hrec.1 hf
        · intro htr
          have h2 := hrec.2 htr
          simpa using h2

/-- **C3.** `_generate_csv_test_file` raises its counting-mismatch error
before producing any output exactly when some TLI-tagged row's blank-cell
count (marker column excluded) differs from the Item count (first
conjunct); otherwise every row keeps its cell count, non-TLI rows pass
through unchanged, and the k-th TLI row (1-based) has its blank cells
filled left-to-right with the Item values in catalog order, each with the
row ordinal `k` substituted for `{sequential_number}`, while its non-blank
cells and its `TLI` marker are untouched (second conjunct). -/
theorem c3_csv_filler (rows : List (List String)) (items : List TliItem) :
    ((∃ e, generateCsvTestFile rows items = .error e) ↔
      ∃ r ∈ rows, isTliRow r = true ∧ blankCount r ≠ items.length) ∧
    (∀ out, generateCsvTestFile rows items = .ok out →
      out.length = rows.length ∧
      (∀ (i : Nat) (r : List String), rows[i]? = some r →
        (isTliRow r = false → out[i]? = some r) ∧
        (isTliRow r = true →
          ∃ r2, out[i]? = some r2 ∧
            r2.length = r.length ∧
            takeBlanks (r.drop 1) (r2.drop 1) =
              items.map (fun it => substSeq it.tliValue
                ((rows.take i).countP (fun row => isTliRow row) + 1)) ∧
            takeSolids (r.drop 1) (r2.drop 1) = takeSolids (r.drop 1) (r.drop 1) ∧
            r2[0]? = some "TLI"))) := by
  constructor
  · constructor
    · rintro ⟨e, he⟩
      unfold generateCsvTestFile at he
      by_cases hemp : (rows.filter (fun r => isTliRow r)).isEmpty
      · rw [if_pos hemp] at he
        cases he
      · rw [if_neg hemp] at he
        cases hfind : (rows.filter (fun r => isTliRow r)).find?
            (fun r => blankCount r != items.length) with
        | none => rw [hfind] at he; cases he
        | some r =>
          have hp := List.find?_some hfind
          have hm := List.mem_of_find?_eq_some hfind
          rw [List.mem_filter] at hm
          refine ⟨r, hm.1, hm.2, ?_⟩
          intro heq
          rw [heq] at hp
          simp at hp
    · rintro ⟨r, hr, htli, hbc⟩
      have hmem : r ∈ rows.filter (fun r => isTliRow r) :=
        List.mem_filter.mpr ⟨hr, htli⟩
      have hemp : (rows.filter (fun r => isTliRow r)).isEmpty = false := by
        cases hfl : rows.filter (fun r => isTliRow r) with
        | nil => rw [hfl] at hmem; cases hmem
        | cons a l => rfl
      unfold generateCsvTestFile
      rw [hemp]
      simp only [Bool.false_eq_true, if_false]
      cases hfind : (rows.filter (fun r => isTliRow r)).find?
          (fun r => blankCount r != items.length) with
      | none =>
        exfalso
        have hall := List.find?_eq_none.mp hfind r hmem
        simp only [bne_iff_ne, ne_eq, Decidable.not_not] at hall
        exact hbc hall
      | some r2 => exact ⟨(items.length, blankCount r2), rfl⟩
  · intro out hout
    unfold generateCsvTestFile at hout
    by_cases hemp : (rows.filter (fun r => isTliRow r)).isEmpty
    · rw [if_pos hemp] at hout
      cases hout
      have hnotli : ∀ r ∈ rows, isTliRow r = false := by
        intro r hr
        cases ht : isTliRow r with
        | false => rfl
        | true =>
          exfalso
          have : r ∈ rows.filter (fun r => isTliRow r) :=
            List.mem_filter.mpr ⟨hr, ht⟩
          rw [List.isEmpty_iff.mp hemp] at this
          cases this
      refine ⟨rfl, ?_⟩
      intro i r hir
      have hf := hnotli r (List.getElem?_mem hir)
      exact ⟨fun _ => hir, fun htr => by rw [htr] at hf; cases hf⟩
    · rw [if_neg hemp] at hout
      cases hfind : (rows.filter (fun r => isTliRow r)).find?
          (fun r => blankCount r != items.length) with
      | some r2 => rw [hfind] at hout; cases hout
      | none =>
        rw [hfind] at hout
        cases hout
        have hcounts : ∀ r ∈ rows, isTliRow r = true →
            blankCount r = items.length := by
          intro r hr htr
          have hall := List.find?_eq_none.mp hfind r
            (List.mem_filter.mpr ⟨hr, htr⟩)
          simpa using hall
        refine ⟨fillTliRows_length items rows 0, ?_⟩
        intro i r hir
        have hspec := fillTliRows_get items rows 0 i r hir
        refine ⟨hspec.1, ?_⟩
        intro htr
        obtain ⟨tail, rfl⟩ : ∃ tail, r = "TLI" :: tail := by
          cases r with
          | nil => cases htr
          | cons c tail =>
            unfold isTliRow at htr
            exact ⟨tail, by rw [eq_of_beq htr]⟩
        have hbc := hcounts _ (List.getElem?_mem hir) htr
        unfold blankCount at hbc
        simp only [List.drop_succ_cons, List.drop_zero] at hbc
        refine ⟨_, by simpa using hspec.2 htr, ?_, ?_, ?_, ?_⟩
        · unfold fillRow
          simp [fillCells_length]
        · unfold fillRow
          simp only [List.drop_succ_cons, List.drop_zero]
          exact takeBlanks_fillCells tail _
            (by rw [hbc]; simp)
        · unfold fillRow
          simp only [List.drop_succ_cons, List.drop_zero]
          exact takeSolids_fillCells tail _
        · have hfr : ∀ vals, fillRow ("TLI" :: tail) vals =
              "TLI" :: fillCells tail vals := fun _ => rfl
          rw [hfr]
          exact List.getElem?_cons_zero

/-- Closed instance of C3: the two-blank TLI rows of `exRows` are filled
with the two item values in order, rows preserved. -/
theorem c3_csv_filler_witness :
    ∃ out, generateCsvTestFile exRows exItems = Except.ok out ∧
      out.length = exRows.length ∧
      out[1]? = some ["TLI", "A-1", "keep", "B"] := by
  refine ⟨fillTliRows exItems 0 exRows, rfl, ?_, rfl⟩
  exact ((c3_csv_filler exRows exItems).2 (fillTliRows exItems 0 exRows) rfl).1

/-! ### Preorder-search lemmas -/

theorem getAt_cons (x : Xml) (i : Nat) (rest : List Nat) :
    getAt x (i :: rest) =
      (match x.childrenOf[i]? with
       | none => none
       | some c => getAt c rest) := rfl

theorem getAt_append (p1 : List Nat) :
    ∀ (p2 : List Nat) (x : Xml),
      getAt x (p1 ++ p2) = (getAt x p1).bind (fun y => getAt y p2) := by
  induction p1 with
  | nil => intro p2 x; rfl
  | cons i rest ih =>
    intro p2 x
    rw [List.cons_append, getAt_cons, getAt_cons]
    cases hc : x.childrenOf[i]? with
    | none => rfl
    | some c => exact ih p2 c

theorem findFirstSuffixList_ne_nil (suf : String) (cs : List Xml) :
    findFirstSuffixList cs suf ≠ some [] := by
  induction cs with
  | nil => intro h; cases h
  | cons c rest ih =>
    rw [findFirstSuffixList_cons]
    cases hc : findFirstSuffix c suf with
    | some p => simp
    | none =>
      cases hr : findFirstSuffixList rest suf with
      | none => simp
      | some l =>
        cases l with
        | nil => exact absurd hr ih
        | cons i p => simp

theorem findFirstSuffixList_spec (suf : String) :
    ∀ (cs : List Xml) (j : Nat) (q : List Nat),
      findFirstSuffixList cs suf = some (j :: q) →
      ∃ c, cs[j]? = some c ∧ findFirstSuffix c suf = some q ∧
        ∀ m, m < j → ∀ cm, cs[m]? = some cm → findFirstSuffix cm suf = none := by
  intro cs
  induction cs with
  | nil => intro j q h; cases h
  | cons c rest ih =>
    intro j q h
    rw [findFirstSuffixList_cons] at h
    cases hc : findFirstSuffix c suf with
    | some p =>
      rw [hc] at h
      simp only [Option.some.injEq, List.cons.injEq] at h
      obtain ⟨hj, hq⟩ := h
      subst hq
      refine ⟨c, ?_, hc, ?_⟩
      · rw [← hj]; exact List.getElem?_cons_zero
      · intro m hm
        rw [← hj] at hm
        exact absurd hm (by omega)
    | none =>
      rw [hc] at h
      cases hr : findFirstSuffixList rest suf with
      | none => rw [hr] at h; cases h
      | some l =>
        rw [hr] at h
        cases l with
        | nil => cases h
        | cons i p =>
          simp only [Option.some.injEq, List.cons.injEq] at h
          obtain ⟨hj, hq⟩ := h
          subst hq
          obtain ⟨c2, hc2, hf2, hall⟩ := ih i p hr
          subst hj
          refine ⟨c2, by simpa using hc2, hf2, ?_⟩
          intro m hm cm hcm
          cases m with
          | zero =>
            simp only [List.getElem?_cons_zero, Option.some.injEq] at hcm
            rw [← hcm]
            exact hc
          | succ m2 =>
            simp only [List.getElem?_cons_succ] at hcm
            exact hall m2 (by omega) cm hcm

theorem findFirstSuffix_descend (suf : String) :
    ∀ (pp : List Nat) (root : Xml) (i : Nat),
      findFirstSuffix root suf = some (pp ++ [i]) →
      ∃ parent, getAt root pp = some parent ∧
        findFirstSuffix parent suf = some [i] := by
  intro pp
  induction pp with
  | nil => intro root i h; exact ⟨root, rfl, by simpa using h⟩
  | cons j rest ih =>
    intro root i h
    cases root with
    | elem t tx cs =>
      rw [findFirstSuffix_elem] at h
      cases he : strEndsWith t suf with
      | true => rw [he] at h; simp at h
      | false =>
        rw [he] at h
        simp only [Bool.false_eq_true, if_false] at h
        rw [List.cons_append] at h
        obtain ⟨c, hcj, hfc, _⟩ := findFirstSuffixList_spec suf cs j (rest ++ [i]) h
        obtain ⟨parent, hget, hfp⟩ := ih c i hfc
        refine ⟨parent, ?_, hfp⟩
        rw [getAt_cons]
        simp only [Xml.childrenOf]
        rw [hcj]
        exact hget

theorem parent_level_first_item (suf : String) (parent : Xml) (i : Nat)
    (h : findFirstSuffix parent suf = some [i]) :
    ∃ c, parent.childrenOf[i]? = some c ∧ strEndsWith c.tagOf suf = true ∧
      ∀ m, m < i → ∀ cm, parent.childrenOf[m]? = some cm →
        strEndsWith cm.tagOf suf = false := by
  cases parent with
  | elem t tx cs =>
    rw [findFirstSuffix_elem] at h
    cases he : strEndsWith t suf with
    | true => rw [he] at h; simp at h
    | false =>
      rw [he] at h
      simp only [Bool.false_eq_true, if_false] at h
      obtain ⟨c, hc, hfc, hall⟩ := findFirstSuffixList_spec suf cs i [] h
      have htag : strEndsWith c.tagOf suf = true := by
        cases c with
        | elem tc txc csc =>
          rw [findFirstSuffix_elem] at hfc
          cases hec : strEndsWith tc suf with
          | true => exact hec
          | false =>
            rw [hec] at hfc
            simp only [Bool.false_eq_true, if_false] at hfc
            exact absurd hfc (findFirstSuffixList_ne_nil suf csc)
      refine ⟨c, hc, htag, ?_⟩
      intro m hm cm hcm
      have hnone := hall m hm cm hcm
      cases cm with
      | elem tm txm csm =>
        rw [findFirstSuffix_elem] at hnone
        cases hem : strEndsWith tm suf with
        | true => rw [hem] at hnone; simp at hnone
        | false => exact hem

theorem filter_take_drop_of_sat {α : Type} (p : α → Bool) :
    ∀ (cs : List α) (i : Nat), i ≤ cs.length →
      (∀ m, m < i → ∀ c, cs[m]? = some c → p c = true) →
      (cs.filter p).take i = cs.take i ∧
      (cs.filter p).drop i = (cs.drop i).filter p := by
  intro cs
  induction cs with
  | nil =>
    intro i hi _
    exact ⟨by simp, by simp⟩
  | cons c rest ih =>
    intro i hi hpre
    cases i with
    | zero => exact ⟨rfl, rfl⟩
    | succ i2 =>
      have hc : p c = true := hpre 0 (by omega) c List.getElem?_cons_zero
      have hrec := ih i2 (by simpa using hi)
        (fun m hm d hd => hpre (m + 1) (by omega) d (by simpa using hd))
      rw [List.filter_cons, if_pos hc]
      simp only [List.take_succ_cons, List.drop_succ_cons]
      exact ⟨by rw [hrec.1], hrec.2⟩

/-- **C8 (amended).** For the invoice engine
(`_clone_invoice_line_items`), the clones are inserted at the original
repeating element's position among its siblings: the first `i` siblings
stay in front, the `n` clones occupy the original position, and all
remaining siblings — in particular a trailing `Summary` element — stay
after the last repetition (with the other same-tag repetitions removed).
The acknowledgment/shipment engines (`_clone_order_ack_line_items`,
`_clone_shipment_item_levels`) instead *append* the clones after all
remaining siblings, so there the claimed position preservation fails
(see the counterexample). -/
theorem c8_insert_position_invoice (root : Xml) (pp : List Nat) (i n : Nat)
    (hfind : findFirstSuffix root "LineItem" = some (pp ++ [i])) :
    ∃ parent firstItem,
      getAt root pp = some parent ∧
      parent.childrenOf[i]? = some firstItem ∧
      getAt (cloneInvoiceLineItems root n) pp =
        some (Xml.elem parent.tagOf parent.textOf
          (parent.childrenOf.take i ++ List.replicate n firstItem ++
            (parent.childrenOf.drop i).filter
              (fun c => c.tagOf != firstItem.tagOf))) := by
  obtain ⟨parent, hget, hfp⟩ := findFirstSuffix_descend "LineItem" pp root i hfind
  obtain ⟨firstItem, hci, htag, hall⟩ := parent_level_first_item "LineItem" parent i hfp
  refine ⟨parent, firstItem, hget, hci, ?_⟩
  have hgetFI : getAt root (pp ++ [i]) = some firstItem := by
    rw [getAt_append, hget]
    show getAt parent [i] = some firstItem
    rw [getAt_cons, hci]
    rfl
  obtain ⟨a, arest, hpr⟩ : ∃ a arest, pp ++ [i] = a :: arest := by
    cases hp : pp ++ [i] with
    | nil => exact absurd hp (by simp)
    | cons a arest => exact ⟨a, arest, rfl⟩
  have hlast : (a :: arest).getLast? = some i := by
    rw [← hpr]; simp
  have hdrop : (a :: arest).dropLast = pp := by
    rw [← hpr]; simp
  rw [hpr] at hfind hgetFI
  unfold cloneInvoiceLineItems
  rw [hfind]
  dsimp only
  rw [hgetFI, hlast]
  dsimp only
  rw [hdrop]
  refine Eq.trans (getAt_modifyAt pp root parent _ hget) ?_
  cases parent with
  | elem t tx cs =>
    have hlen : i ≤ cs.length := by
      simp only [Xml.childrenOf] at hci
      by_contra hgt
      push_neg at hgt
      rw [List.getElem?_eq_none (by omega)] at hci
      cases hci
    have hpre : ∀ m, m < i → ∀ c, cs[m]? = some c →
        (c.tagOf != firstItem.tagOf) = true := by
      intro m hm c hc
      have hfalse := hall m hm c (by simpa using hc)
      have hne : c.tagOf ≠ firstItem.tagOf := by
        intro he
        rw [he, htag] at hfalse
        cases hfalse
      exact bne_iff_ne.mpr hne
    have hftd := filter_take_drop_of_sat
      (fun c => c.tagOf != firstItem.tagOf) cs i hlen hpre
    congr 1
    show Xml.elem t tx
        (List.take i (List.filter (fun c => c.tagOf != firstItem.tagOf) cs) ++
          List.replicate n firstItem ++
          List.drop i (List.filter (fun c => c.tagOf != firstItem.tagOf) cs)) =
      Xml.elem t tx
        (List.take i cs ++ List.replicate n firstItem ++
          List.filter (fun c => c.tagOf != firstItem.tagOf) (List.drop i cs))
    rw [hftd.1, hftd.2]

/-- Counterexample to C8 as stated: the acknowledgment engine appends the
`LineItem` repetitions after the trailing `Summary` sibling, so the
trailing sibling does **not** remain after the last repetition for every
document kind. -/
theorem c8_counterexample :
    (cloneOrderAckLineItems exAckDoc 2).childrenOf.map Xml.tagOf =
      ["Header", "Summary", "LineItem", "LineItem"] ∧
    (cloneOrderAckLineItems exAckDoc 2).childrenOf.map Xml.tagOf ≠
      ["Header", "LineItem", "LineItem", "Summary"] := by
  exact ⟨rfl, by decide⟩

/-- Closed instance of the amended C8: the invoice engine keeps `Header`
in front and `Summary` after both clones. -/
theorem c8_insert_position_invoice_witness :
    ∃ parent firstItem,
      getAt exAckDoc [] = some parent ∧
      parent.childrenOf[1]? = some firstItem ∧
      getAt (cloneInvoiceLineItems exAckDoc 2) [] =
        some (Xml.elem parent.tagOf parent.textOf
          (parent.childrenOf.take 1 ++ List.replicate 2 firstItem ++
            (parent.childrenOf.drop 1).filter
              (fun c => c.tagOf != firstItem.tagOf))) :=
  c8_insert_position_invoice exAckDoc [] 1 2 rfl

/-! ### Quantity-halving lemmas -/

theorem halfRoundEven_nearest (m : Int) :
    |((halfRoundEven m : Int) : ℚ) - (m : ℚ) / 2| ≤ 1 / 2 := by
  unfold halfRoundEven
  have hfd : Int.fdiv m 2 = m / 2 := Int.fdiv_eq_ediv m (by norm_num)
  have hdm : 2 * (m / 2) + m % 2 = m := Int.ediv_add_emod m 2
  rcases Int.emod_two_eq m with h0 | h1
  · rw [h0] at hdm
    simp only [hfd, h0, beq_self_eq_true, if_true]
    have hq : (m : ℚ) = 2 * ((m / 2 : Int) : ℚ) := by
      rw [show ((m : ℚ)) = (((2 * (m / 2) + 0 : Int) : ℚ)) from by rw [hdm]]
      push_cast
      ring
    rw [hq]
    rw [show (2 : ℚ) * ((m / 2 : Int) : ℚ) / 2 = ((m / 2 : Int) : ℚ) from by
      ring]
    simp
  · rw [h1] at hdm
    have hbe : (m % 2 == 0) = false := by rw [h1]; rfl
    simp only [hfd, hbe, Bool.false_eq_true, if_false]
    have hq : (m : ℚ) = 2 * ((m / 2 : Int) : ℚ) + 1 := by
      rw [show ((m : ℚ)) = (((2 * (m / 2) + 1 : Int) : ℚ)) from by rw [hdm]]
      push_cast
      ring
    by_cases hk : ((m / 2) % 2 == 0) = true
    · rw [if_pos hk, hq]
      rw [show ((m / 2 : Int) : ℚ) - (2 * ((m / 2 : Int) : ℚ) + 1) / 2 =
          -(1 / 2) from by ring]
      rw [abs_neg, abs_of_nonneg (by norm_num)]
    · rw [if_neg hk, hq]
      push_cast
      rw [show ((m / 2 : Int) : ℚ) + 1 - (2 * ((m / 2 : Int) : ℚ) + 1) / 2 =
          1 / 2 from by ring]
      rw [abs_of_nonneg (by norm_num)]

theorem natToStrAux_chars (P : Char → Prop)
    (hP : ∀ d : Nat, d < 10 → P (Char.ofNat (48 + d))) :
    ∀ (fuel n : Nat) (acc : List Char), (∀ c ∈ acc, P c) →
      ∀ c ∈ natToStrAux fuel n acc, P c := by
  intro fuel
  induction fuel with
  | zero => intro n acc hacc c hc; exact hacc c hc
  | succ f ih =>
    intro n acc hacc c hc
    unfold natToStrAux at hc
    by_cases hn : (n == 0) = true
    · rw [if_pos hn] at hc; exact hacc c hc
    · rw [if_neg hn] at hc
      refine ih (n / 10) _ ?_ c hc
      intro d hd
      rcases List.mem_cons.mp hd with h | h
      · rw [h]; exact hP (n % 10) (Nat.mod_lt _ (by norm_num))
      · exact hacc d h

theorem natToStr_no_dot (n : Nat) : ∀ c ∈ (natToStr n).toList, c ≠ '.' := by
  unfold natToStr
  by_cases h : (n == 0) = true
  · rw [if_pos h]
    intro c hc
    rw [show ("0").toList = ['0'] from rfl] at hc
    rw [List.mem_singleton] at hc
    rw [hc]
    decide
  · rw [if_neg h]
    intro c hc
    rw [show (String.mk (natToStrAux (n + 1) n [])).toList =
        natToStrAux (n + 1) n [] from rfl] at hc
    refine natToStrAux_chars (fun c => c ≠ '.') ?_ (n + 1) n [] (by simp) c hc
    intro d hd
    interval_cases d <;> decide

theorem natToStrAux_length_le :
    ∀ (k fuel n : Nat) (acc : List Char), n < 10 ^ k →
      (natToStrAux fuel n acc).length ≤ k + acc.length := by
  intro k
  induction k with
  | zero =>
    intro fuel n acc hn
    have hn0 : n = 0 := by simpa using hn
    subst hn0
    cases fuel with
    | zero => simp [natToStrAux]
    | succ f => simp [natToStrAux]
  | succ k2 ih =>
    intro fuel n acc hn
    cases fuel with
    | zero =>
      rw [show natToStrAux 0 n acc = acc from rfl]
      omega
    | succ f =>
      unfold natToStrAux
      by_cases h0 : (n == 0) = true
      · rw [if_pos h0]; omega
      · rw [if_neg h0]
        have hlt : n / 10 < 10 ^ k2 := by
          apply Nat.div_lt_of_lt_mul
          have hps : (10 : Nat) * 10 ^ k2 = 10 ^ (k2 + 1) := by ring
          rw [hps]
          exact hn
        have hrec := ih f (n / 10) (Char.ofNat (48 + n % 10) :: acc) hlt
        simp only [List.length_cons] at hrec
        omega

theorem natToStr_length_le (k n : Nat) (hk : 1 ≤ k) (hn : n < 10 ^ k) :
    (natToStr n).length ≤ k := by
  unfold natToStr
  by_cases h : (n == 0) = true
  · rw [if_pos h]
    simpa using hk
  · rw [if_neg h]
    have hrec := natToStrAux_length_le k (n + 1) n [] hn
    simpa using hrec

theorem zfill_length_of_le (s : String) (w : Nat) (h : s.length ≤ w) :
    (zfill s w).length = w := by
  unfold zfill
  by_cases hge : s.length ≥ w
  · rw [if_pos hge]; omega
  · rw [if_neg hge]
    rw [String.length_append]
    rw [show (String.mk (List.replicate (w - s.length) '0')).length =
        (List.replicate (w - s.length) '0').length from rfl]
    rw [List.length_replicate]
    omega

theorem zfill_no_dot (s : String) (w : Nat) (h : ∀ c ∈ s.toList, c ≠ '.') :
    ∀ c ∈ (zfill s w).toList, c ≠ '.' := by
  unfold zfill
  by_cases hge : s.length ≥ w
  · rw [if_pos hge]; exact h
  · rw [if_neg hge]
    intro c hc
    rw [show (String.mk (List.replicate (w - s.length) '0') ++ s).toList =
        List.replicate (w - s.length) '0' ++ s.toList from by
      cases s with
      | mk data => rfl] at hc
    rcases List.mem_append.mp hc with hm | hm
    · rw [List.eq_of_mem_replicate hm]; decide
    · exact h c hm

theorem splitOnChar_cons (sep c : Char) (rest : List Char) :
    splitOnChar sep (c :: rest) =
      (if c == sep then [] :: splitOnChar sep rest
       else
         match splitOnChar sep rest with
         | h :: t => (c :: h) :: t
         | [] => [[c]]) := rfl

theorem splitOnChar_not_mem (sep : Char) :
    ∀ cs : List Char, (∀ c ∈ cs, c ≠ sep) → splitOnChar sep cs = [cs] := by
  intro cs
  induction cs with
  | nil => intro h; rfl
  | cons c rest ih =>
    intro h
    rw [splitOnChar_cons]
    have hcs : (c == sep) = false := beq_eq_false_iff_ne.mpr (h c (by simp))
    rw [hcs]
    simp only [Bool.false_eq_true, if_false]
    rw [ih (fun d hd => h d (by simp [hd]))]

theorem splitOnChar_first (sep : Char) :
    ∀ (a b : List Char), (∀ c ∈ a, c ≠ sep) →
      splitOnChar sep (a ++ sep :: b) = a :: splitOnChar sep b := by
  intro a
  induction a with
  | nil =>
    intro b h
    simp only [List.nil_append]
    rw [splitOnChar_cons]
    rw [show (sep == sep) = true from beq_self_eq_true sep]
    simp
  | cons x a2 ih =>
    intro b h
    simp only [List.cons_append]
    rw [splitOnChar_cons]
    have hx : (x == sep) = false := beq_eq_false_iff_ne.mpr (h x (by simp))
    rw [hx]
    simp only [Bool.false_eq_true, if_false]
    rw [ih b (fun d hd => h d (by simp [hd]))]

theorem renderScaled_decimals (s : Int) (d : Nat) (hd : d ≠ 0) :
    decimalsOf (renderScaled s d) = d := by
  unfold renderScaled
  rw [if_neg (by simpa using hd)]
  have hpre_nd : ∀ c ∈ ((if s < 0 then "-" else "") ++
      natToStr (s.natAbs / 10 ^ d)).toList, c ≠ '.' := by
    intro c hc
    rw [show ((if s < 0 then "-" else "") ++
        natToStr (s.natAbs / 10 ^ d)).toList =
        (if s < 0 then "-" else "").toList ++
          (natToStr (s.natAbs / 10 ^ d)).toList from by
      cases hn : natToStr (s.natAbs / 10 ^ d) with
      | mk data => by_cases hs : s < 0 <;> simp [hs]] at hc
    rcases List.mem_append.mp hc with hm | hm
    · by_cases hs : s < 0
      · rw [if_pos hs] at hm
        rw [show ("-").toList = ['-'] from rfl, List.mem_singleton] at hm
        rw [hm]; decide
      · rw [if_neg hs] at hm
        cases hm
    · exact natToStr_no_dot _ c hm
  have hpost_nd : ∀ c ∈ (zfill (natToStr (s.natAbs % 10 ^ d)) d).toList,
      c ≠ '.' :=
    zfill_no_dot _ d (natToStr_no_dot _)
  have hsplit : ((if s < 0 then "-" else "") ++ natToStr (s.natAbs / 10 ^ d) ++
      "." ++ zfill (natToStr (s.natAbs % 10 ^ d)) d).toList =
      ((if s < 0 then "-" else "") ++ natToStr (s.natAbs / 10 ^ d)).toList ++
        '.' :: (zfill (natToStr (s.natAbs % 10 ^ d)) d).toList := by
    cases hp : (if s < 0 then "-" else "") ++ natToStr (s.natAbs / 10 ^ d) with
    | mk pdata =>
      cases hq : zfill (natToStr (s.natAbs % 10 ^ d)) d with
      | mk qdata => simp
  unfold decimalsOf strSplitOn
  rw [hsplit]
  rw [splitOnChar_first '.' _ _ hpre_nd]
  rw [splitOnChar_not_mem '.' _ hpost_nd]
  simp only [List.map_cons]
  rw [show (String.mk ((zfill (natToStr (s.natAbs % 10 ^ d)) d).toList)).length
      = (zfill (natToStr (s.natAbs % 10 ^ d)) d).length from by
    cases zfill (natToStr (s.natAbs % 10 ^ d)) d with
    | mk data => rfl]
  exact zfill_length_of_le _ d
    (natToStr_length_le d _ (by omega) (Nat.mod_lt _ (by positivity)))

/-- **C6.** In the consolidated 856 generation, after value injection only
the **first** consolidated order is split (first conjunct:
`applySplitToOrders` touches only the head of the created order list).
`_split_first_packlevel_in_half` replaces the first pack block in place
and inserts its copy immediately after it as a sibling (second conjunct):
the original pack keeps all its `ItemLevel`s with the first one's
`ShipQty` text replaced by the halved string, and the new sibling pack
carries only the copy of that first `ItemLevel` — both therefore carry
the same halved quantity (third conjunct: the halved text is what the
quantity element now holds).  The halved string is numerically faithful:
a quantity with a decimal point is rendered with its original number of
decimal places (fourth conjunct), the rounded numerator is within half a
unit of the exact half (fifth conjunct, banker's rounding at the tie),
and an integer quantity becomes `str(round(m/2))` while a decimal one is
re-formatted at its original scale (sixth and seventh conjuncts). -/
theorem c6_split_first_packlevel (ol : Xml) (pp : List Nat) (k : Nat)
    (pt : String) (ptx : Option String) (pcs : List Xml) (j : Nat)
    (sq : List Nat) (txt halfStr : String)
    (qt : String) (qtx : Option String) (qcs : List Xml)
    (hfind : findFirstSuffix ol "PackLevel" = some (pp ++ [k]))
    (hpack : getAt ol (pp ++ [k]) = some (Xml.elem pt ptx pcs))
    (hitem : pcs.findIdx? (fun c => strEndsWith c.tagOf "ItemLevel") = some j)
    (hsq : findFirstSuffix (getChild pcs j) "ShipQty" = some sq)
    (htxt : (getAt (getChild pcs j) sq).bind Xml.textOf = some txt)
    (hraw : (strTrim txt == "") = false)
    (hhalf : halveQtyString (strTrim txt) = some halfStr)
    (hparent : getAt ol pp = some (Xml.elem qt qtx qcs)) :
    (∀ (o : Xml) (rest : List Xml),
        applySplitToOrders (o :: rest) = splitFirstPackLevelInHalf o :: rest) ∧
    (getAt (splitFirstPackLevelInHalf ol) pp = some (Xml.elem qt qtx
      (List.insertIdx (k + 1)
        (Xml.elem pt ptx
          ((pcs.set j (modifyAt (getChild pcs j) sq
              (fun e => e.setText halfStr))).filter
            (fun c => !strEndsWith c.tagOf "ItemLevel") ++
            [modifyAt (getChild pcs j) sq (fun e => e.setText halfStr)]))
        (qcs.set k (Xml.elem pt ptx
          (pcs.set j (modifyAt (getChild pcs j) sq
            (fun e => e.setText halfStr)))))))) ∧
    ((getAt (modifyAt (getChild pcs j) sq (fun e => e.setText halfStr)) sq).bind
        Xml.textOf = some halfStr) ∧
    (∀ (s2 : Int) (d : Nat), d ≠ 0 → decimalsOf (renderScaled s2 d) = d) ∧
    (∀ m : Int, |((halfRoundEven m : Int) : ℚ) - (m : ℚ) / 2| ≤ 1 / 2) ∧
    (∀ (raw : String) (v : DecVal), parseDecimal raw = some v →
        raw.toList.contains '.' = false →
        halveQtyString raw = some (intToStr (halfRoundEven v.mant))) ∧
    (∀ (raw : String) (v : DecVal), parseDecimal raw = some v →
        raw.toList.contains '.' = true →
        halveQtyString raw = some (renderScaled (halfRoundEven v.mant)
          (decimalsOf raw))) := by
  refine ⟨fun o rest => rfl, ?_, ?_,
    fun s2 d hd => renderScaled_decimals s2 d hd, halfRoundEven_nearest,
    ?_, ?_⟩
  · obtain ⟨a, arest, hpr⟩ : ∃ a arest, pp ++ [k] = a :: arest := by
      cases hp : pp ++ [k] with
      | nil => exact absurd hp (by simp)
      | cons a arest => exact ⟨a, arest, rfl⟩
    have hlast : (a :: arest).getLast? = some k := by rw [← hpr]; simp
    have hdropL : (a :: arest).dropLast = pp := by rw [← hpr]; simp
    rw [hpr] at hfind hpack
    unfold splitFirstPackLevelInHalf
    rw [hfind]
    dsimp only
    rw [hpack, hlast]
    dsimp only
    simp only [Xml.childrenOf]
    rw [hitem]
    dsimp only
    rw [hsq]
    dsimp only
    rw [htxt]
    dsimp only
    rw [hraw]
    simp only [Bool.false_eq_true, if_false]
    rw [hhalf]
    dsimp only
    rw [hdropL]
    exact Eq.trans (getAt_modifyAt pp ol (Xml.elem qt qtx qcs) _ hparent) rfl
  · cases hg : getAt (getChild pcs j) sq with
    | none => rw [hg] at htxt; cases htxt
    | some e =>
      rw [getAt_modifyAt sq (getChild pcs j) e _ hg]
      cases e with
      | elem te txe cse => rfl
  · intro raw v hv hc
    unfold halveQtyString
    rw [hv]
    dsimp only
    rw [hc]
    simp
  · intro raw v hv hc
    unfold halveQtyString
    rw [hv]
    dsimp only
    rw [hc]
    simp

/-- Closed instance of C6: in the concrete consolidated OrderLevel the
quantity `5` is halved to `2` (banker's rounding of 2.5) and the halved
text is carried by the split-off ItemLevel copy. -/
theorem c6_split_first_packlevel_witness :
    (getAt (modifyAt (getChild (getChild exOrderLevel.childrenOf 1).childrenOf 1)
        [0, 0] (fun e => e.setText "2")) [0, 0]).bind Xml.textOf = some "2" :=
  (c6_split_first_packlevel exOrderLevel [] 1 "PackLevel" none
      (getChild exOrderLevel.childrenOf 1).childrenOf 1 [0, 0] "5" "2"
      "OrderLevel" none exOrderLevel.childrenOf
      rfl rfl rfl rfl rfl rfl rfl rfl).2.2.1

/-! ### C1: Extra-Record grouping and container-instance assignment -/

/-- `getChild` after `List.set` at a different index is unchanged. -/
theorem getChild_set_ne (cs : List Xml) (i j : Nat) (x : Xml) (h : i ≠ j) :
    getChild (cs.set i x) j = getChild cs j := by
  simp only [getChild, List.getD, List.get?_eq_getElem?]
  rw [List.getElem?_set_ne h]

/-- `getChild` after appending is unchanged at in-range indices. -/
theorem getChild_append_left (cs : List Xml) (x : Xml) (j : Nat)
    (h : j < cs.length) : getChild (cs ++ [x]) j = getChild cs j := by
  simp only [getChild, List.getD, List.get?_eq_getElem?]
  rw [List.getElem?_append_left h]

/-- A successful reuse scan returns an in-range index whose element's
qualifier view already holds the requested value. -/
theorem groupReuseIdx_spec (rtag qtag qual : String) :
    ∀ (cs : List Xml) (i : Nat), groupReuseIdx cs rtag qtag qual = some i →
      i < cs.length ∧ qualView (getChild cs i) qtag = some qual := by
  intro cs
  induction cs with
  | nil => intro i h; cases h
  | cons c rest ih =>
    intro i h
    unfold groupReuseIdx at h
    by_cases hc : (strEndsWith c.tagOf rtag && (qualView c qtag == some qual)) = true
    · rw [if_pos hc] at h
      injection h with h0
      subst h0
      refine ⟨by simp, ?_⟩
      have h2 := ((Bool.and_eq_true _ _).mp hc).2
      have h3 : qualView c qtag = some qual := by simpa using h2
      exact h3
    · rw [if_neg hc] at h
      cases hr : groupReuseIdx rest rtag qtag qual with
      | none => rw [hr] at h; simp at h
      | some i2 =>
        rw [hr] at h
        simp only [Option.map_some'] at h
        injection h with h0
        subst h0
        obtain ⟨h1, h2⟩ := ih i2 hr
        refine ⟨by simp only [List.length_cons]; omega, ?_⟩
        exact h2

/-- One group step either appends a fresh container at the old length, or
reuses an in-range container whose qualifier element already matched; in
both cases all other previously existing children are untouched. -/
theorem groupStep_spec (cs : List Xml) (rtag qtag qual : String)
    (writes : List (List String × String)) (cs1 : List Xml) (i0 : Nat)
    (h : groupStep cs rtag qtag qual writes = (cs1, i0)) :
    (i0 = cs.length ∧ cs1.length = cs.length + 1 ∧
      ∀ j, j < cs.length → getChild cs1 j = getChild cs j) ∨
    (i0 < cs.length ∧ cs1.length = cs.length ∧
      qualView (getChild cs i0) qtag = some qual ∧
      ∀ j, j < cs.length → j ≠ i0 → getChild cs1 j = getChild cs j) := by
  unfold groupStep at h
  cases hr : groupReuseIdx cs rtag qtag qual with
  | none =>
    rw [hr] at h
    dsimp only at h
    cases h
    left
    refine ⟨rfl, by simp, ?_⟩
    intro j hj
    exact getChild_append_left cs _ j hj
  | some i =>
    rw [hr] at h
    dsimp only at h
    cases h
    right
    obtain ⟨hlt, hqv⟩ := groupReuseIdx_spec rtag qtag qual cs i0 hr
    exact ⟨hlt, by simp, hqv,
      fun j _ hne => getChild_set_ne cs i0 j _ (fun he => hne he.symm)⟩

/-- Unfolding lemma for `runGroups` on a cons cell. -/
theorem runGroups_cons (cs : List Xml) (g : XGroup) (rest : List XGroup) :
    runGroups cs (g :: rest) =
      ((runGroups (groupStep cs g.rtagOf g.qtag g.qual g.writes).1 rest).1,
        (groupStep cs g.rtagOf g.qtag g.qual g.writes).2 ::
          (runGroups (groupStep cs g.rtagOf g.qtag g.qual g.writes).1 rest).2) := rfl

/-- Unfolding lemma for `cleanRun` on a cons cell. -/
theorem cleanRun_cons (cs : List Xml) (g : XGroup) (rest : List XGroup) :
    cleanRun cs (g :: rest) =
      ((qualView (getChild (groupStep cs g.rtagOf g.qtag g.qual g.writes).1
          (groupStep cs g.rtagOf g.qtag g.qual g.writes).2) g.qtag == some g.qual)
        && cleanRun (groupStep cs g.rtagOf g.qtag g.qual g.writes).1 rest) := rfl

/-- `runGroups` assigns exactly one container index per group. -/
theorem runGroups_length (gs : List XGroup) :
    ∀ cs : List Xml, (runGroups cs gs).2.length = gs.length := by
  induction gs with
  | nil => intro cs; rfl
  | cons g rest ih => intro cs; simp [runGroups_cons, ih]

/-- Invariant induction for a clean run: with `done` recording the
qualifier values and container indices already assigned, the indices the
remaining groups receive avoid those in `done` and are pairwise distinct,
provided all qualifier values are distinct and every group's value writes
leave its own qualifier element intact. -/
theorem runGroups_distinct_aux (T : String) (gs : List XGroup) :
    ∀ (cs : List Xml) (done : List (String × Nat)),
      (∀ e ∈ done, e.2 < cs.length ∧ qualView (getChild cs e.2) T = some e.1) →
      (∀ g ∈ gs, g.qtag = T) →
      (∀ g ∈ gs, ∀ e ∈ done, g.qual ≠ e.1) →
      (gs.map XGroup.qual).Pairwise (fun x y => x ≠ y) →
      cleanRun cs gs = true →
      ((runGroups cs gs).2.Pairwise (fun x y => x ≠ y) ∧
        ∀ i ∈ (runGroups cs gs).2, ∀ e ∈ done, i ≠ e.2) := by
  induction gs with
  | nil =>
    intro cs done _ _ _ _ _
    exact ⟨List.Pairwise.nil, fun i hi => absurd hi (List.not_mem_nil i)⟩
  | cons g rest ih =>
    intro cs done hdone hT hdist hpw hclean
    obtain ⟨cs1, i0, hstep⟩ :
        ∃ cs1 i0, groupStep cs g.rtagOf g.qtag g.qual g.writes = (cs1, i0) :=
      ⟨_, _, rfl⟩
    have hTg : g.qtag = T := hT g (List.mem_cons_self g rest)
    rw [cleanRun_cons, hstep] at hclean
    dsimp only at hclean
    rw [Bool.and_eq_true] at hclean
    obtain ⟨hcl1, hcl2⟩ := hclean
    have hclq : qualView (getChild cs1 i0) g.qtag = some g.qual := by
      simpa using hcl1
    have hcases := groupStep_spec cs g.rtagOf g.qtag g.qual g.writes cs1 i0 hstep
    have hi_notin : ∀ e ∈ done, i0 ≠ e.2 := by
      intro e he hieq
      rcases hcases with ⟨heq, _, _⟩ | ⟨hlt, _, hqv, _⟩
      · have h4 := (hdone e he).1
        omega
      · have h1 := (hdone e he).2
        rw [← hieq] at h1
        rw [hTg] at hqv
        rw [h1] at hqv
        have h3 : e.1 = g.qual := Option.some.inj hqv
        exact hdist g (List.mem_cons_self g rest) e he h3.symm
    have hdone2 : ∀ e ∈ (g.qual, i0) :: done,
        e.2 < cs1.length ∧ qualView (getChild cs1 e.2) T = some e.1 := by
      intro e he
      rcases List.mem_cons.mp he with rfl | he2
      · constructor
        · show i0 < cs1.length
          rcases hcases with ⟨heq, hlen, _⟩ | ⟨hlt, hlen, _, _⟩ <;> omega
        · show qualView (getChild cs1 i0) T = some g.qual
          rw [← hTg]
          exact hclq
      · obtain ⟨h1, h2⟩ := hdone e he2
        have hne : i0 ≠ e.2 := hi_notin e he2
        rcases hcases with ⟨heq, hlen, hpres⟩ | ⟨hlt, hlen, _, hpres⟩
        · exact ⟨by omega, by rw [hpres e.2 h1]; exact h2⟩
        · exact ⟨by omega, by rw [hpres e.2 h1 (fun hx => hne hx.symm)]; exact h2⟩
    have hTrest : ∀ g2 ∈ rest, g2.qtag = T :=
      fun g2 h2 => hT g2 (List.mem_cons_of_mem g h2)
    rw [List.map_cons] at hpw
    have hpwc := List.pairwise_cons.mp hpw
    have hdist2 : ∀ g2 ∈ rest, ∀ e ∈ (g.qual, i0) :: done, g2.qual ≠ e.1 := by
      intro g2 h2 e he
      rcases List.mem_cons.mp he with rfl | he2
      · intro hq
        exact hpwc.1 g2.qual (List.mem_map_of_mem XGroup.qual h2) hq.symm
      · exact hdist g2 (List.mem_cons_of_mem g h2) e he2
    have hrec := ih cs1 ((g.qual, i0) :: done) hdone2 hTrest hdist2 hpwc.2 hcl2
    rw [runGroups_cons, hstep]
    dsimp only
    constructor
    · rw [List.pairwise_cons]
      refine ⟨?_, hrec.1⟩
      intro j hj hij
      exact hrec.2 j hj (g.qual, i0) (List.mem_cons_self _ _) hij.symm
    · intro i hi e he
      rcases List.mem_cons.mp hi with rfl | hi2
      · exact hi_notin e he
      · exact hrec.2 i hi2 e (List.mem_cons_of_mem _ he)

/-- `buildGroups` is the fold of its named loop body. -/
theorem buildGroups_eq_foldl (docRootName : String) (items : List HItem) :
    buildGroups docRootName items =
      items.foldl (buildGroupsStep docRootName) ([], []) := rfl

/-- `addToGroups` puts the added key among the keys. -/
theorem addToGroups_self_mem (key : List String × String × String) (it : HItem) :
    ∀ acc, key ∈ (addToGroups acc key it).map Prod.fst := by
  intro acc
  induction acc with
  | nil => simp [addToGroups]
  | cons e rest ih =>
    obtain ⟨k, its⟩ := e
    unfold addToGroups
    by_cases h : (k == key) = true
    · rw [if_pos h]
      simp only [List.map_cons, List.mem_cons]
      exact Or.inl (eq_of_beq h).symm
    · rw [if_neg h]
      simp only [List.map_cons, List.mem_cons]
      exact Or.inr ih

/-- `addToGroups` keeps all existing keys. -/
theorem addToGroups_mono (key : List String × String × String) (it : HItem)
    (k2 : List String × String × String) :
    ∀ acc, k2 ∈ acc.map Prod.fst → k2 ∈ (addToGroups acc key it).map Prod.fst := by
  intro acc
  induction acc with
  | nil => intro h; exact absurd h (List.not_mem_nil k2)
  | cons e rest ih =>
    obtain ⟨k, its⟩ := e
    intro h
    simp only [List.map_cons, List.mem_cons] at h
    unfold addToGroups
    by_cases hb : (k == key) = true
    · rw [if_pos hb]
      simp only [List.map_cons, List.mem_cons]
      exact h
    · rw [if_neg hb]
      simp only [List.map_cons, List.mem_cons]
      rcases h with h | h
      · exact Or.inl h
      · exact Or.inr (ih h)

/-- The partitioning fold keeps all existing group keys. -/
theorem buildGroups_foldl_mono (docRootName : String) (items : List HItem) :
    ∀ (acc : List ((List String × String × String) × List HItem) × List HItem)
      (k2 : List String × String × String), k2 ∈ acc.1.map Prod.fst →
      k2 ∈ (items.foldl (buildGroupsStep docRootName) acc).1.map Prod.fst := by
  induction items with
  | nil => intro acc k2 h; simpa using h
  | cons a rest ih =>
    intro acc k2 h
    rw [List.foldl_cons]
    apply ih
    unfold buildGroupsStep
    by_cases h1 : (a.rsxPath == "") = true
    · rw [if_pos h1]
      exact h
    · rw [if_neg h1]
      by_cases h2 : isGrouped docRootName a = true
      · rw [if_pos h2]
        exact addToGroups_mono _ a k2 acc.1 h
      · rw [if_neg h2]
        exact h

/-- Every eligible grouped item's key appears among the group keys built by
the partitioning fold. -/
theorem buildGroups_key_mem (docRootName : String) (items : List HItem) :
    ∀ (acc : List ((List String × String × String) × List HItem) × List HItem)
      (it : HItem), it ∈ items → (it.rsxPath == "") = false →
      isGrouped docRootName it = true →
      itemKey docRootName it ∈
        (items.foldl (buildGroupsStep docRootName) acc).1.map Prod.fst := by
  induction items with
  | nil => intro acc it h _ _; exact absurd h (List.not_mem_nil it)
  | cons a rest ih =>
    intro acc it hmem hne hg
    rw [List.foldl_cons]
    rcases List.mem_cons.mp hmem with rfl | hmem2
    · apply buildGroups_foldl_mono
      have hstep : buildGroupsStep docRootName acc it =
          (addToGroups acc.1 (itemKey docRootName it) it, acc.2) := by
        unfold buildGroupsStep
        rw [hne, hg]
        simp
      rw [hstep]
      exact addToGroups_self_mem _ it acc.1
    · exact ih (buildGroupsStep docRootName acc a) it hmem2 hne hg

/-- A key occurring among an association list's keys is found by the
first-match index scan, at an in-range position. -/
theorem findIdx?_of_mem_keys :
    ∀ (l : List ((List String × String × String) × List HItem))
      (k : List String × String × String), k ∈ l.map Prod.fst →
      ∃ n, l.findIdx? (fun e => e.1 == k) = some n ∧ n < l.length := by
  intro l
  induction l with
  | nil => intro k h; exact absurd h (List.not_mem_nil k)
  | cons e rest ih =>
    intro k h
    by_cases hb : (e.1 == k) = true
    · refine ⟨0, ?_, by simp⟩
      simp only [List.findIdx?_cons]
      rw [hb]
      simp
    · simp only [List.map_cons, List.mem_cons] at h
      rcases h with h | h
      · exact absurd (beq_iff_eq.mpr h.symm) hb
      · obtain ⟨n, hn, hlt⟩ := ih k h
        refine ⟨n + 1, ?_, by simp only [List.length_cons]; omega⟩
        simp only [List.findIdx?_cons]
        rw [if_neg hb, List.findIdx?_succ]
        simp [hn]

/-- Two grouped items with equal keys are assigned the same container
instance index, regardless of where they sit in the items list. -/
theorem itemContainerIdx_eq_of_key (docRootName : String) (cs : List Xml)
    (items : List HItem) (a b : HItem)
    (ha : a ∈ items) (hra : (a.rsxPath == "") = false)
    (hga : isGrouped docRootName a = true)
    (hkey : itemKey docRootName a = itemKey docRootName b) :
    ∃ n, itemContainerIdx docRootName cs items a = some n ∧
      itemContainerIdx docRootName cs items b = some n := by
  have hmem : itemKey docRootName a ∈ (buildGroups docRootName items).1.map Prod.fst := by
    rw [buildGroups_eq_foldl]
    exact buildGroups_key_mem docRootName items ([], []) a ha hra hga
  obtain ⟨n, hn, hlt⟩ := findIdx?_of_mem_keys (buildGroups docRootName items).1
    (itemKey docRootName a) hmem
  have hlen : n < (runGroups cs ((buildGroups docRootName items).1.map
      (xgroupOfEntry docRootName))).2.length := by
    rw [runGroups_length]
    simpa using hlt
  obtain ⟨v, hv⟩ : ∃ v, (runGroups cs ((buildGroups docRootName items).1.map
      (xgroupOfEntry docRootName))).2[n]? = some v :=
    ⟨_, (List.getElem?_eq_some_getElem_iff _ n hlen).mpr trivial⟩
  refine ⟨v, ?_, ?_⟩
  · unfold itemContainerIdx
    dsimp only
    rw [hn]
    exact hv
  · unfold itemContainerIdx
    dsimp only
    simp only [← hkey]
    rw [hn]
    exact hv

/-- C1 counterexample: `exIt1` and `exIt2` are grouped Items with the same
parent path (`Address`) but different qualifier values (`ST` vs `VN`), yet
both are written into the same container instance (child index 1): the
`ST` group's value write (path `…_Address_TypeCode`) suffix-resolves onto
the `AddressTypeCode` qualifier element and overwrites it with `VN`, so
the `VN` group's reuse scan matches the `ST` group's container. -/
theorem c1_counterexample :
    (itemKey "Invoice" exIt1).1 = (itemKey "Invoice" exIt2).1 ∧
    exIt1.extraQualTrim ≠ exIt2.extraQualTrim ∧
    isGrouped "Invoice" exIt1 = true ∧ isGrouped "Invoice" exIt2 = true ∧
    itemContainerIdx "Invoice" [exAddr] [exIt1, exIt2] exIt1 = some 1 ∧
    itemContainerIdx "Invoice" [exAddr] [exIt1, exIt2] exIt2 = some 1 :=
  ⟨rfl, by decide, rfl, rfl, rfl, rfl⟩

/-- C1 (amended): in a single-parent run of the Extra-Record value
injector, (i) any two eligible Items whose `(parentPath, qualifierTag,
qualifierValue)` keys are equal are assigned the same repeated-container
instance index, regardless of their positions in the items list; and
(ii) groups over the same parent with the same qualifier tag and pairwise
distinct qualifier values receive pairwise distinct container instance
indices PROVIDED the run is clean, i.e. no group's value writes disturb
its own qualifier element (without that proviso distinctness can fail, see
the counterexample). -/
theorem c1_extra_record_grouping (docRootName T : String) (cs : List Xml)
    (items : List HItem) (a b : HItem) (gs : List XGroup) (P : List String)
    (ha : a ∈ items) (hra : (a.rsxPath == "") = false)
    (hga : isGrouped docRootName a = true)
    (hkey : itemKey docRootName a = itemKey docRootName b)
    (_hP : ∀ g ∈ gs, g.parentParts = P) (hT : ∀ g ∈ gs, g.qtag = T)
    (hpw : (gs.map XGroup.qual).Pairwise (fun x y => x ≠ y))
    (hclean : cleanRun cs gs = true) :
    (∃ n, itemContainerIdx docRootName cs items a = some n ∧
      itemContainerIdx docRootName cs items b = some n) ∧
    (runGroups cs gs).2.Pairwise (fun x y => x ≠ y) := by
  constructor
  · exact itemContainerIdx_eq_of_key docRootName cs items a b ha hra hga hkey
  · exact (runGroups_distinct_aux T gs cs []
      (fun e he => absurd he (List.not_mem_nil e))
      hT (fun g _ e he => absurd he (List.not_mem_nil e)) hpw hclean).1

/-- Closed instance of C1 at the clean groups `exG1`/`exG2` and the items
`exJ1`/`exJ1b` (same key `ST`, separated by `exJ2` in the list): the
same-key items share one container index and the two distinct-qualifier
groups receive distinct indices. -/
theorem c1_extra_record_grouping_witness :
    (∃ n, itemContainerIdx "Invoice" [exAddr] [exJ1, exJ2, exJ1b] exJ1 = some n ∧
      itemContainerIdx "Invoice" [exAddr] [exJ1, exJ2, exJ1b] exJ1b = some n) ∧
    (runGroups [exAddr] [exG1, exG2]).2.Pairwise (fun x y => x ≠ y) :=
  c1_extra_record_grouping "Invoice" "AddressTypeCode" [exAddr]
    [exJ1, exJ2, exJ1b] exJ1 exJ1b [exG1, exG2] ["Address"]
    (by decide) (by decide) (by decide) (by decide)
    (by decide) (by decide) (by decide) (by decide)
